import Mathlib

/-!
Verification of the Rust maze longest-path solver
(`src/backend/rust/src/rust_maze_solver.rs`) against its specification.

This file is a shallow embedding of the solver's core into Lean 4:

* `Graph` models the heapless `IndexMap<NodeId, HeaplessVec<NodeId, 8>, _, 2048>`
  as an insertion-ordered association list with the same capacity checks
  (node capacity 2048, per-node neighbour capacity 8).
* visited-node sets: the solver tracks visitation in a `NodeBitset`.  All node
  ids reaching the search loops are below `MAX_NODE_COUNT`, where the bitset
  behaves exactly like a finite set of naturals, so the search procedures are
  embedded over `NSet` (a duplicate-free list of naturals) with `set`/`clear`/
  `contains`/`count` realised as guarded insert / filter / membership / length.
  The `NodeBitset` itself (including its fatal out-of-range branch) is embedded
  bit-exactly further below for the contract claims.
* recursion: the Rust searches recurse while the visited set grows (or, for the
  branch-and-bound search, while `depth < depth_limit`).  The embeddings take
  an explicit fuel argument that decreases structurally; callers pass fuel that
  provably dominates the recursion depth of the source (`depth_limit - depth`
  for the branch-and-bound search, the node count for the exhaustive searches,
  whose recursion depth is bounded by the number of distinct nodes).
* wall-clock deadlines (`Instant::now()` checks in the exhaustive search) are
  modelled as never expiring; they only ever cut a search short, and the
  concrete inputs evaluated here finish far inside the 12 s budget.
* rayon parallelism is sequentialised: the per-chunk workers are independent
  (each owns its path/visited state), and the shared best cell is only ever
  replaced by strictly longer results, so the fold below computes the same
  final best length.
* the random post-pass (`random_walk_improvements`) consumes an injectable
  random source `Rng` (a stream of naturals) and a `Clock` (a stream of
  booleans answering the `Instant::now() >= time_limit` checks); the
  floating-point annealing temperature only feeds the oracled acceptance
  coin-flip and is not tracked separately.
-/

/-- Constant `MAX_NODE_COUNT` from the source. -/
def MAX_NODE_COUNT : Nat := 2048

/-- Constant `MAX_FACE_SIZE` from the source. -/
def MAX_FACE_SIZE : Nat := 28

/-- Constant `MAX_SIZE_BRUTE_FORCE` from the source. -/
def MAX_SIZE_BRUTE_FORCE : Nat := 100

/-- Constant `NUM_ENDPOINT_HEURISTIC` from the source. -/
def NUM_ENDPOINT_HEURISTIC : Nat := 254

/-- Logical content of a `NodeBitset` used by the searches: the set of set
bits, as a duplicate-free list of node ids. -/
abbrev NSet := List Nat

/-- Bitset `set`: a no-op when the bit is already set. -/
def NSet.set (v : NSet) (n : Nat) : NSet := if n ∈ v then v else n :: v

/-- Bitset `clear`: removes the id (all occurrences, matching the single bit). -/
def NSet.clear (v : NSet) (n : Nat) : NSet := v.filter (fun x => x ≠ n)

/-- Bitset `count`: number of set bits; the searches only ever `set` ids that
are absent, so the list stays duplicate-free and its length is the popcount. -/
def NSet.count (v : NSet) : Nat := v.length


/-! ## Graph

The Rust `Graph` stores adjacency in a heapless `IndexMap` of capacity 2048
with neighbour vectors of capacity 8.  The `IndexMap` preserves insertion
order; inserting an existing key replaces its value in place, inserting a new
key appends it, and inserting a new key into a full map fails.  Mutating
operations return the updated graph together with the `Result` flag
(`true` = `Ok`); on failure the graph keeps whatever mutations happened before
the failing step, exactly as the `&mut self` methods do. -/

structure Graph where
  adjacency : List (Nat × List Nat)
deriving Repr, DecidableEq

/-- Constructor `Graph::new`. -/
def Graph.new : Graph := ⟨[]⟩

/-- Method `node_count`. -/
def Graph.node_count (g : Graph) : Nat := g.adjacency.length

/-- Method `nodes` (keys in insertion order). -/
def Graph.nodes (g : Graph) : List Nat := g.adjacency.map Prod.fst

/-- Test `adjacency.contains_key`. -/
def Graph.containsKey (g : Graph) (k : Nat) : Bool := (g.adjacency.lookup k).isSome

/-- Method `get_neighbors` (empty slice when the node is absent). -/
def Graph.get_neighbors (g : Graph) (n : Nat) : List Nat :=
  (g.adjacency.lookup n).getD []

/-- Helper modelling `IndexMap` value replacement at an existing key. -/
def Graph.setValue (g : Graph) (k : Nat) (l : List Nat) : Graph :=
  ⟨g.adjacency.map (fun p => if p.1 = k then (k, l) else p)⟩

/-- Method `add_node`: insert `(id, [])`, replacing in place if present,
appending if there is capacity, failing (flag `false`, graph unchanged) when
the map is full. -/
def Graph.add_node (g : Graph) (id : Nat) : Bool × Graph :=
  if g.containsKey id then (true, g.setValue id [])
  else if g.adjacency.length < MAX_NODE_COUNT then (true, ⟨g.adjacency ++ [(id, [])]⟩)
  else (false, g)

/-- One `neighbors.push` of `add_edge`: append `b` to `a`'s neighbour list
if absent, failing (flag `false`, graph unchanged) when the list is full. -/
def Graph.pushNeighbor (g : Graph) (a b : Nat) : Bool × Graph :=
  let nbrs := g.get_neighbors a
  if b ∈ nbrs then (true, g)
  else if nbrs.length < 8 then (true, g.setValue a (nbrs ++ [b]))
  else (false, g)

/-- Method `add_edge`, mirroring the source step by step: ensure both endpoint
nodes exist (propagating `add_node` failures), then push `to` onto `from`'s
neighbour list if absent (failing when the list is full), then push `from`
onto `to`'s list likewise.  Note that a failure in the second push leaves the
first push in place, just like the Rust early `return Err(())`. -/
def Graph.add_edge (g : Graph) (fromN toN : Nat) : Bool × Graph :=
  let s1 := if g.containsKey fromN then (true, g) else g.add_node fromN
  if !s1.1 then s1 else
  let s2 := if s1.2.containsKey toN then (true, s1.2) else s1.2.add_node toN
  if !s2.1 then s2 else
  let s3 := s2.2.pushNeighbor fromN toN
  if !s3.1 then s3 else
  s3.2.pushNeighbor toN fromN

/-- Method `next_clockwise_neighbor`. -/
def Graph.next_clockwise_neighbor (g : Graph) (node fromN : Nat) : Option Nat :=
  match g.adjacency.lookup node with
  | none => none
  | some neighbors =>
    match neighbors.findIdx? (fun n => n = fromN) with
    | none => none
    | some pos => some (neighbors.getD ((pos + 1) % neighbors.length) 0)

/-- Edge relation induced by the adjacency structure (directional, as read by
`verify_path` and the searches). -/
def Graph.edge (g : Graph) (a b : Nat) : Prop := b ∈ g.get_neighbors a

instance (g : Graph) (a b : Nat) : Decidable (g.edge a b) := by
  unfold Graph.edge; infer_instance

/-- Well-formedness enjoyed by every graph the pipeline builds: node keys are
pairwise distinct and every neighbour entry is itself a node of the graph. -/
def Graph.Wellformed (g : Graph) : Prop :=
  g.nodes.Nodup ∧ ∀ p ∈ g.adjacency, ∀ v ∈ p.2, v ∈ g.nodes

instance (g : Graph) : Decidable g.Wellformed := by
  unfold Graph.Wellformed; infer_instance

/-! ## Graph construction from an adjacency document

`build_graph_from_adjacency` receives a `HashMap<String, Vec<String>>`; the
embedding receives the map as a list of key/value pairs in the (fixed but
arbitrary) iteration order of the hash map — the Rust code iterates the
unmutated map twice and sees the same order both times.  `name_to_id[...]`
indexing panics in Rust when a neighbour name is not a key of the map; the
embedding totalises that lookup with default id `0` (the inputs considered
here always list every neighbour as a key). -/

def buildNameTable (al : List (String × List String)) : List (String × Nat) × List String :=
  al.foldl
    (fun acc p =>
      if (acc.1.lookup p.1).isSome then acc
      else (acc.1 ++ [(p.1, acc.2.length)], acc.2 ++ [p.1]))
    ([], [])

/-- Function `build_graph_from_adjacency`: assign ids by first appearance,
then add every node and its edges, ignoring (`let _ =`) all capacity errors. -/
def build_graph_from_adjacency (al : List (String × List String)) :
    Graph × List String :=
  let tables := buildNameTable al
  let name_to_id := tables.1
  let graph := al.foldl
    (fun (g : Graph) p =>
      let node_id := (name_to_id.lookup p.1).getD 0
      let g := (g.add_node node_id).2
      p.2.foldl
        (fun (g : Graph) nbr =>
          let neighbor_id := (name_to_id.lookup nbr).getD 0
          (g.add_edge node_id neighbor_id).2)
        g)
    Graph.new
  (graph, tables.2)

/-! ## Path validation (`verify_path`) -/

/-- Duplicate scan of `verify_path`: the Rust loop inserts each node into a
`HashSet` and fails on the first node already present. -/
def verifyNoDup (seen : NSet) : List Nat → Bool
  | [] => true
  | n :: rest => if n ∈ seen then false else verifyNoDup (seen.set n) rest

/-- Consecutive-edge scan of `verify_path`: checks
`graph.get_neighbors(path[i]).contains(&path[i+1])` for every `i`. -/
def verifyEdges (g : Graph) : List Nat → Bool
  | a :: b :: rest => decide (b ∈ g.get_neighbors a) && verifyEdges g (b :: rest)
  | _ => true

/-- Function `verify_path`: true for the empty path, else no duplicates and
every consecutive pair an edge. -/
def verify_path (g : Graph) (path : List Nat) : Bool :=
  if path.isEmpty then true
  else verifyNoDup [] path && verifyEdges g path


/-! ## NodeBitset (bit-exact embedding)

`NodeBitset` is `[u64; 32]`; `set`/`clear`/`contains` first check
`idx >= MAX_NODE_COUNT` and panic on violation — embedded as `none`.  Words
are naturals kept below `2^64` (the bit operations cannot overflow a word). -/

structure NodeBitset where
  data : List Nat
deriving Repr, DecidableEq

/-- Constructor `NodeBitset::new`: 32 zero words. -/
def NodeBitset.new : NodeBitset := ⟨List.replicate (MAX_NODE_COUNT / 64) 0⟩

/-- Method `NodeBitset::set`; `none` models the fatal out-of-range branch. -/
def NodeBitset.set (b : NodeBitset) (node_id : Nat) : Option NodeBitset :=
  if MAX_NODE_COUNT ≤ node_id then none
  else
    let arr_idx := node_id / 64
    let bit_idx := node_id % 64
    some ⟨b.data.set arr_idx ((b.data.getD arr_idx 0) ||| (1 <<< bit_idx))⟩

/-- Method `NodeBitset::clear`; `none` models the fatal out-of-range branch. -/
def NodeBitset.clear (b : NodeBitset) (node_id : Nat) : Option NodeBitset :=
  if MAX_NODE_COUNT ≤ node_id then none
  else
    let arr_idx := node_id / 64
    let bit_idx := node_id % 64
    some ⟨b.data.set arr_idx ((b.data.getD arr_idx 0) &&& ((2 ^ 64 - 1) - (1 <<< bit_idx)))⟩

/-- Method `NodeBitset::contains`; `none` models the fatal out-of-range branch. -/
def NodeBitset.containsBit (b : NodeBitset) (node_id : Nat) : Option Bool :=
  if MAX_NODE_COUNT ≤ node_id then none
  else
    let arr_idx := node_id / 64
    let bit_idx := node_id % 64
    some (decide ((b.data.getD arr_idx 0) &&& (1 <<< bit_idx) ≠ 0))

/-! ## Face finder

`FaceFinder::find_face_clockwise` walks half-edges by the next-clockwise rule,
inserting each traversed half-edge into `visited_half_edges`, until it returns
to the starting node, hits a missing clockwise neighbour, or the face exceeds
`MAX_FACE_SIZE` (or the face vector's capacity 128, which is unreachable since
the walk stops beyond 29 entries).  The walk never reads the visited set, so
the embedding returns the list of inserted half-edges for the caller to union
in.  Fuel bounds the loop; each iteration grows `face` by one and the loop
refuses to continue past `MAX_FACE_SIZE`, so `MAX_FACE_SIZE + 3` iterations
always suffice and the fuel-0 branch is unreachable from `find_face_clockwise`. -/

def faceWalk (g : Graph) (start : Nat) :
    Nat → List Nat → Nat → Nat → List (Nat × Nat) → List (Nat × Nat) × Option (List Nat)
  | 0, _, _, _, inserted => (inserted, none)
  | fuel + 1, face, current, next, inserted =>
    let inserted := inserted ++ [(current, next)]
    let prev := current
    let current := next
    if 128 ≤ face.length then (inserted, none)
    else
      let face := face ++ [current]
      if current = start then (inserted, some face)
      else
        match g.next_clockwise_neighbor current prev with
        | none => (inserted, none)
        | some neighbor =>
          if MAX_FACE_SIZE < face.length then (inserted, none)
          else faceWalk g start fuel face current neighbor inserted

/-- Method `find_face_clockwise`: runs the walk from half-edge
`(start_node, first_neighbor)` and keeps the face only when the walk closed
with length in `[3, MAX_FACE_SIZE]`.  Returns the traversed half-edges and the
kept face (if any). -/
def find_face_clockwise (g : Graph) (start_node first_neighbor : Nat) :
    List (Nat × Nat) × Option (List Nat) :=
  match faceWalk g start_node (MAX_FACE_SIZE + 3) [start_node] start_node first_neighbor [] with
  | (ins, some face) =>
    if 3 ≤ face.length ∧ face.length ≤ MAX_FACE_SIZE then (ins, some face) else (ins, none)
  | (ins, none) => (ins, none)

/-- Record of one face-traversal attempt: the half-edge it started from, every
half-edge it traversed (inserted into `visited_half_edges`), and the face it
kept, if any. -/
structure FaceAttempt where
  start : Nat × Nat
  inserted : List (Nat × Nat)
  kept : Option (List Nat)
deriving Repr, DecidableEq

/-- Directed half-edges in the iteration order of `build_faces` (nodes in
insertion order, then each node's neighbour list in order). -/
def Graph.halfEdges (g : Graph) : List (Nat × Nat) :=
  g.nodes.flatMap (fun u => (g.get_neighbors u).map (fun v => (u, v)))

/-- Worker loop of `build_faces`: for each half-edge in order, skip it when
already visited, otherwise run one traversal attempt and add its traversed
half-edges to the visited set. -/
def buildFacesGo (g : Graph) :
    List (Nat × Nat) → List FaceAttempt → List (Nat × Nat) →
    List FaceAttempt × List (Nat × Nat)
  | [], attempts, vis => (attempts, vis)
  | e :: es, attempts, vis =>
    if e ∈ vis then buildFacesGo g es attempts vis
    else
      let r := find_face_clockwise g e.1 e.2
      buildFacesGo g es (attempts ++ [⟨e, r.1, r.2⟩]) (vis ++ r.1)

/-- Method `build_faces`, instrumented to keep the list of attempts. -/
def build_faces_attempts (g : Graph) : List FaceAttempt × List (Nat × Nat) :=
  buildFacesGo g g.halfEdges [] []

/-- Method `build_faces`: the faces kept across all attempts, in order. -/
def build_faces (g : Graph) : List (List Nat) :=
  (build_faces_attempts g).1.filterMap (fun a => a.kept)

/-! ## Search state and the enhanced face heuristic -/

/-- Mutable state threaded through the recursive searches: the working path,
the visited set, and the best length/path cells the search may update. -/
structure SState where
  path : List Nat
  visited : NSet
  bestLen : Nat
  bestPath : List Nat
deriving Repr, DecidableEq

/-- Function `enhanced_face_heuristic`: remaining-unvisited count when the
face list is empty or no face contains the path's last node; otherwise the sum
of unvisited nodes over faces containing the last node, inflated by 10 % and
capped by the remaining-unvisited count. -/
def enhanced_face_heuristic (g : Graph) (current_path : List Nat) (visited : NSet)
    (faces : List (List Nat)) : Nat :=
  if faces.isEmpty then g.node_count - visited.count
  else
    let last_node := current_path.getLastD 0
    let reachable_faces := faces.filter (fun f => last_node ∈ f)
    if reachable_faces.isEmpty then g.node_count - visited.count
    else
      let total_reachable :=
        (reachable_faces.map (fun f => (f.filter (fun id => id ∉ visited)).length)).sum
      let total_reachable := total_reachable * 11 / 10
      let leftover_nodes := g.node_count - visited.count
      min leftover_nodes total_reachable

/-- Prune test of `bnb_search_local`: the face list is non-empty and
`current_length + face_bound * 8 / 10 < best_length` (strict). -/
def bnb_prunes (g : Graph) (faces : List (List Nat)) (path : List Nat) (visited : NSet)
    (bestLen : Nat) : Bool :=
  !faces.isEmpty &&
    decide (path.length + enhanced_face_heuristic g path visited faces * 8 / 10 < bestLen)

/-- Neighbour ordering of `bnb_search_local`: on graphs above 180 nodes, sort
unvisited neighbours by ascending degree at shallow depth or even depth, by
descending degree at odd depth ≥ 20 (`sort_by_key` is stable; `mergeSort` with
a total `≤` on keys reproduces it). -/
def orderNeighbors (g : Graph) (depth : Nat) (neighbors : List Nat) : List Nat :=
  if 180 < g.node_count then
    if depth < 20 then
      neighbors.mergeSort (fun a b => (g.get_neighbors a).length ≤ (g.get_neighbors b).length)
    else if depth % 2 = 0 then
      neighbors.mergeSort (fun a b => (g.get_neighbors a).length ≤ (g.get_neighbors b).length)
    else
      neighbors.mergeSort (fun a b => (g.get_neighbors b).length ≤ (g.get_neighbors a).length)
  else neighbors

/-- Recursive body of `bnb_search_local`.  The fuel argument is
`depth_limit - depth`, so fuel 0 is exactly the `depth >= depth_limit` early
return; `depth` itself is also threaded because the neighbour ordering reads
it.  Each child expansion pushes/marks, recurses, then pops/unmarks, exactly
as the Rust `&mut` discipline does. -/
def bnbGo (g : Graph) (faces : List (List Nat)) : Nat → Nat → SState → SState
  | 0, _, st => st
  | fuel + 1, depth, st =>
    let current_length := st.path.length
    let last_node := st.path.getLastD 0
    if bnb_prunes g faces st.path st.visited st.bestLen then st
    else
      let st :=
        if st.bestLen < current_length then
          { st with bestLen := current_length, bestPath := st.path }
        else st
      let neighbors := (g.get_neighbors last_node).filter (fun n => decide (n ∉ st.visited))
      let ordered_neighbors := orderNeighbors g depth neighbors
      ordered_neighbors.foldl
        (fun s neighbor =>
          let s1 := bnbGo g faces fuel (depth + 1)
            { s with path := s.path ++ [neighbor], visited := s.visited.set neighbor }
          { s1 with path := s1.path.dropLast, visited := s1.visited.clear neighbor })
        st

/-- Function `bnb_search_local` with its source signature. -/
def bnb_search_local (g : Graph) (faces : List (List Nat)) (st : SState)
    (depth depth_limit : Nat) : SState :=
  bnbGo g faces (depth_limit - depth) depth st

/-! ## Exhaustive backtracking search -/

/-- Function `backtrack_exact_standard`.  The periodic wall-clock check is
modelled as never expiring (see the header); the remaining body updates the
best cells and expands every unvisited neighbour with the push/mark —
pop/unmark discipline.  Fuel dominates the recursion depth, which the source
bounds by the number of distinct visitable nodes. -/
def backtrack_exact_standard (g : Graph) : Nat → SState → SState
  | 0, st => st
  | fuel + 1, st =>
    let st :=
      if st.bestLen < st.path.length then
        { st with bestLen := st.path.length, bestPath := st.path }
      else st
    let current := st.path.getLastD 0
    (g.get_neighbors current).foldl
      (fun s neighbor =>
        if neighbor ∈ s.visited then s
        else
          let s1 := backtrack_exact_standard g fuel
            { s with path := s.path ++ [neighbor], visited := s.visited.set neighbor }
          { s1 with path := s1.path.dropLast, visited := s1.visited.clear neighbor })
      st

/-- Function `backtrack_subgraph`: once the (never-firing) time check of
`backtrack_exact_standard` is dropped the two bodies coincide, so the
subgraph search is the same function. -/
def backtrack_subgraph (g : Graph) : Nat → SState → SState :=
  backtrack_exact_standard g

/-- Function `exact_longest_path_standard`: choose degree ≤ 2 start nodes
(all nodes when fewer than two qualify), run the exhaustive search from each,
and keep the strictly best result; rayon's per-start workers are
sequentialised (see the header). -/
def exact_longest_path_standard (g : Graph) : List Nat :=
  let start_nodes := g.nodes.filter (fun node => (g.get_neighbors node).length ≤ 2)
  let nodes_to_try := if start_nodes.length < 2 then g.nodes else start_nodes
  let best := nodes_to_try.foldl
    (fun (best : Nat × List Nat) start_node =>
      let r := backtrack_exact_standard g g.node_count
        { path := [start_node], visited := [start_node], bestLen := 0, bestPath := [] }
      if best.1 < r.bestLen then (r.bestLen, r.bestPath) else best)
    (0, [])
  best.2

/-- Function `exact_longest_path_subgraph`: single-threaded exhaustive search
from `start_node`, with best initialised to the one-node path. -/
def exact_longest_path_subgraph (subg : Graph) (start_node : Nat) : Nat × List Nat :=
  let st := backtrack_subgraph subg subg.node_count
    { path := [start_node], visited := [start_node], bestLen := 1, bestPath := [start_node] }
  (st.bestLen, st.bestPath)

/-! ## Endpoint refinement -/

/-- Loop body of `get_subgraph_nodes_excluding_path`: breadth-first collection
of every node reachable from the queue without entering `exclude`.  Fuel
bounds the loop; each popped node was enqueued exactly once (enqueueing marks
it visited), so `node_count + 1` pops dominate the source loop on the graphs
the pipeline builds. -/
def bfsCollect (g : Graph) (exclude : NSet) :
    Nat → List Nat → NSet → List Nat → List Nat
  | 0, _, _, sub_nodes => sub_nodes
  | _ + 1, [], _, sub_nodes => sub_nodes
  | fuel + 1, u :: queue, visited, sub_nodes =>
    let sub_nodes := sub_nodes ++ [u]
    let step := (g.get_neighbors u).foldl
      (fun (acc : List Nat × NSet) nbr =>
        if nbr ∉ exclude ∧ nbr ∉ acc.2 then (acc.1 ++ [nbr], acc.2.set nbr) else acc)
      (queue, visited)
    bfsCollect g exclude fuel step.1 step.2 sub_nodes

/-- Function `get_subgraph_nodes_excluding_path`: the queue starts with
`start` unless it is excluded. -/
def get_subgraph_nodes_excluding_path (g : Graph) (start : Nat) (exclude : NSet) :
    List Nat :=
  if start ∈ exclude then bfsCollect g exclude (g.node_count + 1) [] [] []
  else bfsCollect g exclude (g.node_count + 1) [start] [start] []

/-- Function `build_subgraph_from_nodes`: add every node of `sub_nodes`, then
every induced edge, propagating capacity errors as `Except.error`. -/
def build_subgraph_from_nodes (g : Graph) (sub_nodes : List Nat) :
    Except String Graph := do
  let in_sub := sub_nodes
  let mut new_graph := Graph.new
  for n in sub_nodes do
    let r := new_graph.add_node n
    if r.1 then new_graph := r.2
    else throw s!"Failed to add node {n} to subgraph"
  for n in sub_nodes do
    for nbr in g.get_neighbors n do
      if nbr ∈ in_sub then
        let r := new_graph.add_edge n nbr
        if r.1 then new_graph := r.2
        else throw s!"Failed to add edge {n}-{nbr} to subgraph"
  return new_graph

/-- Function `refine_one_endpoint_subgraph`: trim near one end, collect the
free subgraph past the trim node, exactly re-solve it, and splice the result
back; returns `some` only when the merged path is strictly longer and passes
`verify_path`. -/
def refine_one_endpoint_subgraph (g : Graph) (path : List Nat) (refine_front : Bool) :
    Option (List Nat) :=
  if path.length < 6 then none
  else
    let trim_idx := if refine_front then 4 else path.length - 5
    let keep_head_first := !refine_front
    let trim_node := path.getD trim_idx 0
    let path_nodes := path.foldl (fun (s : NSet) n => s.set n) []
    let sub_nodes := get_subgraph_nodes_excluding_path g trim_node path_nodes
    if sub_nodes.length ≤ 1 then none
    else
      match build_subgraph_from_nodes g sub_nodes with
      | Except.error _ => none
      | Except.ok subg =>
        let r := exact_longest_path_subgraph subg trim_node
        if r.1 ≤ 1 then none
        else
          let merged :=
            if keep_head_first then
              let d1 := (path.take (trim_idx + 1)).foldl
                (fun (acc : List Nat × NSet) node => (acc.1 ++ [node], acc.2.set node))
                ([], [])
              r.2.foldl
                (fun (acc : List Nat × NSet) node =>
                  if node ∉ acc.2 then (acc.1 ++ [node], acc.2.set node) else acc)
                d1
            else
              let d1 := r.2.foldl
                (fun (acc : List Nat × NSet) node =>
                  if node ∉ acc.2 then (acc.1 ++ [node], acc.2.set node) else acc)
                ([], [])
              (path.drop trim_idx).foldl
                (fun (acc : List Nat × NSet) node =>
                  if node ∉ acc.2 then (acc.1 ++ [node], acc.2.set node) else acc)
                d1
          let new_path := merged.1
          if path.length < new_path.length ∧ verify_path g new_path = true then some new_path
          else none

/-- Function `refine_path_endpoints_subgraph`: refine the back, then the
front, keeping each improvement. -/
def refine_path_endpoints_subgraph (g : Graph) (current_path : List Nat) : List Nat :=
  if current_path.length < 6 then current_path
  else
    let best_path := current_path
    let best_path :=
      match refine_one_endpoint_subgraph g best_path false with
      | some improved => improved
      | none => best_path
    match refine_one_endpoint_subgraph g best_path true with
    | some improved => improved
    | none => best_path

/-! ## Heuristic path search -/

/-- Start-candidate selection of `find_heuristic_path` for graphs above
`NUM_ENDPOINT_HEURISTIC` nodes.  The Rust single pass distributes nodes into
degree buckets `min(degree, 5) - 1` preserving node order, so each bucket is
the order-preserving filter written here; `sort_by_key` is stable, matched by
`mergeSort` on the modulo keys.  On a degree-0 node the Rust bucket index
underflows and panics; the claims about this selection therefore assume
minimum degree 1 (true of every connected component). -/
def heuristic_start_nodes (g : Graph) : List Nat :=
  if NUM_ENDPOINT_HEURISTIC < g.node_count then
    let bucket := fun b =>
      g.nodes.filter (fun node => min (g.get_neighbors node).length 5 - 1 = b)
    let selected := bucket 0
    let selected :=
      if selected.length < NUM_ENDPOINT_HEURISTIC then
        let degree2_count := min (NUM_ENDPOINT_HEURISTIC - selected.length) (bucket 1).length
        let sorted_degree2 := (bucket 1).mergeSort (fun a b => a % 97 ≤ b % 97)
        selected ++ sorted_degree2.take degree2_count
      else selected
    let selected :=
      if selected.length < NUM_ENDPOINT_HEURISTIC then
        let high_degree := bucket 2 ++ bucket 3 ++ bucket 4
        let sorted_high := high_degree.mergeSort (fun a b => a % 101 ≤ b % 101)
        selected ++ sorted_high.take (min (NUM_ENDPOINT_HEURISTIC - selected.length) high_degree.length)
      else selected
    selected
  else g.nodes

/-- Iterative-deepening loop of `find_heuristic_path` (graphs above 500
nodes): run the bounded search per depth limit, escalate on improvement > 8,
stop once improvement ≤ 1. -/
def deepeningLoop (g : Graph) (faces : List (List Nat)) :
    List Nat → SState → SState
  | [], st => st
  | depth_limit :: rest, st =>
    let pre_search_best := st.bestLen
    let st := bnb_search_local g faces st 0 depth_limit
    if pre_search_best + 8 < st.bestLen then deepeningLoop g faces rest st
    else if st.bestLen ≤ pre_search_best + 1 then st
    else deepeningLoop g faces rest st

/-- Per-chunk worker of `find_heuristic_path`: each start gets a fresh
one-node path and visited set; the local best cells persist across the
chunk's starts. -/
def heuristicStep (g : Graph) (faces : List (List Nat))
    (local_best : Nat × List Nat) (start_node : Nat) : Nat × List Nat :=
  let st0 : SState :=
    { path := [start_node], visited := [start_node]
      bestLen := local_best.1, bestPath := local_best.2 }
  let st :=
    if 500 < g.node_count then
      deepeningLoop g faces [80, 175, 360, 2400, 5000, 7500] st0
    else bnb_search_local g faces st0 0 7500
  (st.bestLen, st.bestPath)

def heuristicChunk (g : Graph) (faces : List (List Nat)) (chunk : List Nat) :
    Nat × List Nat :=
  chunk.foldl (heuristicStep g faces) (0, [])

/-- Loop of `par_chunks`: split off `chunk_size` elements at a time.  The
fuel is the list length, which dominates the iteration count since every
round consumes at least one element (`chunk_size ≥ 1` at the call site). -/
def parChunksGo (chunk_size : Nat) : Nat → List Nat → List (List Nat)
  | _, [] => []
  | 0, l => [l]
  | fuel + 1, x :: xs =>
    (x :: xs.take (chunk_size - 1)) :: parChunksGo chunk_size fuel (xs.drop (chunk_size - 1))

/-- Model of rayon's `par_chunks(chunk_size)`: consecutive chunks of
`chunk_size` elements, the last one possibly shorter. -/
def par_chunks (chunk_size : Nat) (l : List Nat) : List (List Nat) :=
  parChunksGo chunk_size l.length l

/-- Chunked parallel search of `find_heuristic_path` and the strict-best
fold over all worker results: the `(global_best_length, global_best_path)`
pair of the `PathFinder` after the parallel phase. -/
def heuristicGlobal (g : Graph) (faces : List (List Nat)) (threadCount : Nat) :
    Nat × List Nat :=
  let pruned_start_nodes := heuristic_start_nodes g
  let chunk_size := max (pruned_start_nodes.length / threadCount + 1) 1
  let results := (par_chunks chunk_size pruned_start_nodes).map (heuristicChunk g faces)
  results.foldl
    (fun (global : Nat × List Nat) r => if global.1 < r.1 then r else global)
    (0, [])

/-- Function `find_heuristic_path` for a fresh `PathFinder` (best cells start
at `0 / []`, as the pipeline constructs one per component): candidate
selection, chunked parallel search (sequentialised), strict-best fold, then
the coverage-gated endpoint-refinement steps.  The `f32` coverage percentage
`(len * 100.0 / n) as u32` is exact natural division for the magnitudes in
range (products stay below 2^24). -/
def find_heuristic_path (g : Graph) (faces : List (List Nat)) (threadCount : Nat) :
    List Nat :=
  let node_count := g.node_count
  let global_best := heuristicGlobal g faces threadCount
  let coverage_pct := global_best.1 * 100 / node_count
  let best1 :=
    if coverage_pct < 85 ∧ global_best.2 ≠ [] then
      refine_path_endpoints_subgraph g global_best.2
    else global_best.2
  if coverage_pct < 85 ∧ (coverage_pct + 1) * node_count ≤ best1.length * 100 then
    if best1 ≠ [] ∧ 3 ≤ best1.length then
      refine_path_endpoints_subgraph g ((best1.drop 1).dropLast)
    else best1
  else best1

/-- Method `PathFinder::find_longest_path`: brute force below the size
threshold, heuristic search above it. -/
def find_longest_path (g : Graph) (faces : List (List Nat)) (threadCount : Nat) :
    List Nat :=
  if g.node_count ≤ MAX_SIZE_BRUTE_FORCE then exact_longest_path_standard g
  else find_heuristic_path g faces threadCount

/-! ## Stochastic improvement pass (`random_walk_improvements`)

The random source is injectable (a stream of naturals); `random_range(a..b)`
draws the next value into `[a, b)` (every call site guarantees `a < b` on the
graphs considered — on an empty graph the Rust `random_range(0..0)` panics,
so the claims about this pass assume a non-empty graph).  The
`Instant::now() >= time_limit` checks consume a stream of booleans; an
exhausted stream reads as expired.  The `f64` comparison against
`exp((cand - cur) / temperature)` is modelled as the next oracle coin, so the
floating-point temperature needs no separate state. -/

structure Rng where
  vals : List Nat
deriving Repr, DecidableEq

/-- Draw the next raw value (0 once the stream is exhausted). -/
def Rng.next : Rng → Nat × Rng
  | ⟨[]⟩ => (0, ⟨[]⟩)
  | ⟨v :: vs⟩ => (v, ⟨vs⟩)

/-- Model of `rng.random_range(lo..hi)`; call sites guarantee `lo < hi`. -/
def Rng.nextRange (r : Rng) (lo hi : Nat) : Nat × Rng :=
  let s := r.next
  (lo + s.1 % (hi - lo), s.2)

/-- Model of `rng.random_bool(0.5)`. -/
def Rng.nextBool (r : Rng) : Bool × Rng :=
  let s := r.next
  (s.1 % 2 = 0, s.2)

/-- Model of the annealing acceptance test
`rng.random::<f64>() < exp((candidate_len - current_len) / temperature)`. -/
def Rng.nextCoin (r : Rng) : Bool × Rng :=
  let s := r.next
  (s.1 % 2 = 0, s.2)

structure Clock where
  vals : List Bool
deriving Repr, DecidableEq

/-- Model of one `Instant::now() >= time_limit` check. -/
def Clock.expired : Clock → Bool × Clock
  | ⟨[]⟩ => (true, ⟨[]⟩)
  | ⟨b :: bs⟩ => (b, ⟨bs⟩)

/-- Step loop of `create_random_walk` (up to 300 random steps into unvisited
territory). -/
def createRandomWalkGo (g : Graph) :
    Nat → List Nat → NSet → Nat → Rng → List Nat × Rng
  | 0, path, _, _, rng => (path, rng)
  | k + 1, path, visited, current, rng =>
    let neighbors := (g.get_neighbors current).filter (fun n => decide (n ∉ visited))
    if neighbors.isEmpty then (path, rng)
    else
      let s := rng.nextRange 0 neighbors.length
      let next := neighbors.getD s.1 0
      createRandomWalkGo g k (path ++ [next]) (visited.set next) next s.2

/-- Function `create_random_walk`. -/
def create_random_walk (g : Graph) (start : Nat) (rng : Rng) : List Nat × Rng :=
  createRandomWalkGo g 300 [start] [start] start rng

/-- Extension loop of `extend_path` (up to 100 steps). -/
def extendWalkGo (g : Graph) :
    Nat → List Nat → NSet → Nat → Rng → List Nat × Rng
  | 0, extension, _, _, rng => (extension, rng)
  | k + 1, extension, visited, current, rng =>
    let neighbors := (g.get_neighbors current).filter (fun n => decide (n ∉ visited))
    if neighbors.isEmpty then (extension, rng)
    else
      let s := rng.nextRange 0 neighbors.length
      let next := neighbors.getD s.1 0
      extendWalkGo g k (extension ++ [next]) (visited.set next) next s.2

/-- Function `extend_path`: grow a random extension from a random end. -/
def extend_path (g : Graph) (path : List Nat) (rng : Rng) : List Nat × Rng :=
  if path.isEmpty then ([], rng)
  else
    let s := rng.nextBool
    let from_start := s.1
    let rng := s.2
    let current_end := if from_start then path.headD 0 else path.getLastD 0
    let visited := path.foldl NSet.set []
    let e := extendWalkGo g 100 [] visited current_end rng
    let extension := e.1
    let rng := e.2
    if extension.isEmpty then (path, rng)
    else if from_start then (extension.reverse ++ path, rng)
    else (path ++ extension, rng)

/-- Detour loop of `create_detour` (up to 50 steps; on a dead end try to
reconnect to the path away from the detour's entry neighbours, else give up
and return the original path). -/
def detourGo (g : Graph) (path : List Nat) (idx : Nat) (path_nodes : NSet) :
    Nat → List Nat → NSet → Nat → Rng → List Nat × Rng
  | 0, _, _, _, rng => (path, rng)
  | k + 1, detour, visited, current, rng =>
    let neighbors := (g.get_neighbors current).filter (fun n => decide (n ∉ visited))
    if neighbors.isEmpty then
      let reconnect_neighbors := (g.get_neighbors current).filter
        (fun n => decide (n ∈ path_nodes) &&
          !(n = path.getD (idx - 1) 0) && !(n = path.getD (idx + 1) 0))
      if reconnect_neighbors.isEmpty then (path, rng)
      else
        let s := rng.nextRange 0 reconnect_neighbors.length
        let reconnect := reconnect_neighbors.getD s.1 0
        let detour := detour ++ [reconnect]
        let reconnect_idx := ((path.findIdx? (fun n => n = reconnect)).getD 0)
        (path.take idx ++ detour ++ path.drop (reconnect_idx + 1), s.2)
    else
      let s := rng.nextRange 0 neighbors.length
      let next := neighbors.getD s.1 0
      detourGo g path idx path_nodes k (detour ++ [next]) (visited.set next) next s.2

/-- Function `create_detour`. -/
def create_detour (g : Graph) (path : List Nat) (rng : Rng) : List Nat × Rng :=
  if path.length < 3 then (path, rng)
  else
    let s := rng.nextRange 1 (path.length - 1)
    let idx := s.1
    let rng := s.2
    let path_nodes := (path.foldl NSet.set []).clear (path.getD idx 0)
    detourGo g path idx path_nodes 50 [path.getD idx 0] path_nodes (path.getD idx 0) rng

/-- Function `reverse_segment`: reverse a random interior segment, keeping it
only when both new boundary edges exist. -/
def reverse_segment (g : Graph) (path : List Nat) (rng : Rng) : List Nat × Rng :=
  if path.length < 4 then (path, rng)
  else
    let len := path.length
    let s1 := rng.nextRange 1 (len - 2)
    let i := s1.1
    let s2 := s1.2.nextRange (i + 1) (len - 1)
    let j := s2.1
    let rng := s2.2
    let new_path := path.take i ++ ((path.drop i).take (j - i + 1)).reverse ++ path.drop (j + 1)
    if 0 < i ∧ new_path.getD i 0 ∉ g.get_neighbors (new_path.getD (i - 1) 0) then (path, rng)
    else if j < len - 1 ∧ new_path.getD (j + 1) 0 ∉ g.get_neighbors (new_path.getD j 0) then
      (path, rng)
    else (new_path, rng)

/-- Function `recombine_with_best`: join `path1` to `path2` at a random
connection point (a shared node or a graph-adjacent pair). -/
def recombine_with_best (g : Graph) (path1 path2 : List Nat) (rng : Rng) :
    List Nat × Rng :=
  if path1.isEmpty ∨ path2.isEmpty then (path1, rng)
  else
    let connections := path1.enum.flatMap (fun p1 =>
      path2.enum.filterMap (fun p2 =>
        if p1.2 = p2.2 ∨ p2.2 ∈ g.get_neighbors p1.2 then
          some (p1.1, p2.1, decide (p1.2 = p2.2))
        else none))
    if connections.isEmpty then (path1, rng)
    else
      let s := rng.nextRange 0 connections.length
      let c := connections.getD s.1 (0, 0, false)
      let rng := s.2
      let new_path := path1.take (c.1 + 1) ++
        (if c.2.2 then [] else [path2.getD c.2.1 0]) ++ path2.drop (c.2.1 + 1)
      if verify_path g new_path then (new_path, rng) else (path1, rng)

/-- Function `try_connect_paths`: fuse two paths at chosen ends when the ends
coincide or are adjacent; empty list when they cannot be connected. -/
def try_connect_paths (g : Graph) (path1 : List Nat) (from_start1 : Bool)
    (path2 : List Nat) (from_start2 : Bool) : List Nat :=
  if path1.isEmpty ∨ path2.isEmpty then []
  else
    let endpoint1 := if from_start1 then path1.headD 0 else path1.getLastD 0
    let endpoint2 := if from_start2 then path2.headD 0 else path2.getLastD 0
    if endpoint1 ≠ endpoint2 ∧ endpoint2 ∉ g.get_neighbors endpoint1 then []
    else
      let result := if from_start1 then path1.reverse else path1
      if from_start2 then
        result ++ path2.drop (if endpoint1 = endpoint2 then 1 else 0)
      else
        result ++ (path2.take (if endpoint1 = endpoint2 then path2.length - 1 else path2.length)).reverse

/-- Function `fuse_paths`: best of the four directional joins when it beats
both inputs, else the longer input. -/
def fuse_paths (g : Graph) (path1 path2 : List Nat) : List Nat :=
  let fusions := [
    try_connect_paths g path1 true path2 true,
    try_connect_paths g path1 true path2 false,
    try_connect_paths g path1 false path2 true,
    try_connect_paths g path1 false path2 false]
  let best := fusions.foldl
    (fun (best : Nat × List Nat) fusion =>
      if best.1 < fusion.length then (fusion.length, fusion) else best)
    (0, [])
  if path1.length < best.1 ∧ path2.length < best.1 then best.2
  else if path2.length ≤ path1.length then path1 else path2

/-- State of the annealing loop: the working path and its length, the global
best cells, and the oracles. -/
structure RWState where
  path : List Nat
  currentLength : Nat
  bestPath : List Nat
  bestLength : Nat
  rng : Rng
  clock : Clock

/-- Seed-collection loop of `random_walk_improvements`: up to 20 fresh random
walks from random low-degree starts, kept when longer than 10 nodes. -/
def seedLoopGo (g : Graph) :
    Nat → List (List Nat) → Rng → Clock → List (List Nat) × Rng × Clock
  | 0, acc, rng, clock => (acc, rng, clock)
  | k + 1, acc, rng, clock =>
    let e := clock.expired
    if e.1 then (acc, rng, e.2)
    else
      let clock := e.2
      let start_nodes := g.nodes.filter (fun node => (g.get_neighbors node).length ≤ 3)
      let pick :=
        if !start_nodes.isEmpty then
          let s := rng.nextRange 0 start_nodes.length
          (start_nodes.getD s.1 0, s.2)
        else
          let ns := g.nodes
          let s := rng.nextRange 0 ns.length
          (ns.getD s.1 0, s.2)
      let w := create_random_walk g pick.1 pick.2
      seedLoopGo g k (if 10 < w.1.length then acc ++ [w.1] else acc) w.2 clock

/-- Proposal block of one annealing iteration: pick one of the four random
local edits and thread the random stream. -/
def annealPropose (g : Graph) (st : RWState) : List Nat × RWState :=
  let sOp := st.rng.nextRange 0 4
  let opv := sOp.1
  let cand :=
    match opv with
    | 0 => extend_path g st.path sOp.2
    | 1 => create_detour g st.path sOp.2
    | 2 => reverse_segment g st.path sOp.2
    | _ => recombine_with_best g st.path st.bestPath sOp.2
  (cand.1, { st with rng := cand.2 })

/-- Acceptance block of one annealing iteration (the candidate has already
passed `verify_path`): accept on strict improvement or on the oracle coin,
and promote the working path into the best cells when strictly longer. -/
def annealAccept (st : RWState) (candidate : List Nat) : RWState :=
  let candidate_length := candidate.length
  let acc :=
    if st.currentLength < candidate_length then (true, st.rng)
    else st.rng.nextCoin
  let st := { st with rng := acc.2 }
  if acc.1 then
    let st1 : RWState := { st with path := candidate, currentLength := candidate_length }
    if st1.bestLength < st1.currentLength then
      { st1 with bestPath := st1.path, bestLength := st1.currentLength }
    else st1
  else st

/-- Every-20th-iteration fusion block of one annealing iteration: fuse the
working path with the global best, keep it if valid and strictly longer, and
promote into the best cells when strictly longer. -/
def annealFuse (g : Graph) (iteration : Nat) (st : RWState) : RWState :=
  if iteration % 20 = 0 ∧ 0 < iteration then
    let fused := fuse_paths g st.path st.bestPath
    if verify_path g fused = true ∧ st.currentLength < fused.length then
      let st := { st with path := fused, currentLength := fused.length }
      if st.bestLength < st.currentLength then
        { st with bestPath := st.path, bestLength := st.currentLength }
      else st
    else st
  else st

/-- One simulated-annealing run over the iteration indices `0..200`: random
local edit, validity gate, acceptance (always on strict improvement, else by
the oracle coin), best-cell update, and the every-20th-iteration fusion with
the global best. -/
def annealGo (g : Graph) : List Nat → RWState → RWState
  | [], st => st
  | iteration :: rest, st =>
    let e := st.clock.expired
    if e.1 then { st with clock := e.2 }
    else
      let st := { st with clock := e.2 }
      let pc := annealPropose g st
      let candidate := pc.1
      let st := pc.2
      if verify_path g candidate = false then annealGo g rest st
      else annealGo g rest (annealFuse g iteration (annealAccept st candidate))

/-- Seed-processing loop: anneal each seed in turn against the shared best
cells, stopping when the time box expires. -/
def seedsGo (g : Graph) :
    List (List Nat) → List Nat → Nat → Rng → Clock → List Nat × Nat
  | [], bestPath, bestLength, _, _ => (bestPath, bestLength)
  | p :: rest, bestPath, bestLength, rng, clock =>
    let e := clock.expired
    if e.1 then (bestPath, bestLength)
    else
      let r := annealGo g (List.range 200)
        { path := p, currentLength := p.length, bestPath := bestPath
          bestLength := bestLength, rng := rng, clock := e.2 }
      seedsGo g rest r.bestPath r.bestLength r.rng r.clock

/-- Function `random_walk_improvements`: seeds are the input path plus up to
20 fresh random walks; each is annealed; the best path observed (initialised
to the input) is returned. -/
def random_walk_improvements (g : Graph) (current_path : List Nat)
    (rng : Rng) (clock : Clock) : List Nat :=
  let best_path := current_path
  let best_length := current_path.length
  let seeds := seedLoopGo g 20 [] rng clock
  let initial_paths := [current_path] ++ seeds.1
  (seedsGo g initial_paths best_path best_length seeds.2.1 seeds.2.2).1

/-! ## Concrete inputs used by the witnesses and counterexamples -/

/-- Chain 0-1-2-3-4-5. -/
def chainG : Graph := ⟨[(0, [1]), (1, [0, 2]), (2, [1, 3]), (3, [2, 4]), (4, [3, 5]), (5, [4])]⟩

/-- Face list whose single face touches no node of `chainG`, so the face
bound falls back to the remaining-unvisited count at every search node. -/
def chainFaces : List (List Nat) := [[10, 11, 12]]

/-- Cycle on 30 nodes with the natural `[previous, next]` neighbour order;
its clockwise boundary walks are longer than `MAX_FACE_SIZE`. -/
def cycle30 : Graph :=
  ⟨(List.range 30).map (fun i => (i, [(i + 29) % 30, (i + 1) % 30]))⟩

/-- Two K4 blocks glued at node 0, plus pendant nodes 7 and 8 on node 0.  The
only degree ≤ 2 nodes are the pendants, every path from a pendant crosses the
cut node 0 once and is stuck in one block (length ≤ 5), yet the graph has a
7-node simple path `1-2-3-0-4-5-6` between two degree-3 nodes. -/
def twoK4 : Graph :=
  ⟨[(0, [1, 2, 3, 4, 5, 6, 7, 8]),
    (1, [0, 2, 3]), (2, [0, 1, 3]), (3, [0, 1, 2]),
    (4, [0, 5, 6]), (5, [0, 4, 6]), (6, [0, 4, 5]),
    (7, [0]), (8, [0])]⟩

/-- Complete graph on 4 nodes: no degree ≤ 2 nodes at all. -/
def k4G : Graph :=
  ⟨[(0, [1, 2, 3]), (1, [0, 2, 3]), (2, [0, 1, 3]), (3, [0, 1, 2])]⟩

/-- Caterpillar: a 43-node spine, each spine node carrying 6 pendant leaves;
301 nodes in total, 258 of them degree 1, all degrees within the capacity 8. -/
def caterpillar : Graph :=
  ⟨((List.range 43).map (fun j =>
      (j, (if 0 < j then [j - 1] else []) ++ (if j < 42 then [j + 1] else []) ++
        (List.range 6).map (fun k => 43 + 6 * j + k)))) ++
    ((List.range 43).flatMap (fun j =>
      (List.range 6).map (fun k => (43 + 6 * j + k, [j]))))⟩

/-- Adjacency document in which node "0" lists nine neighbours — one more
than the neighbour capacity 8 — and every neighbour lists "0" back. -/
def overAl : List (String × List String) :=
  [("0", ["1", "2", "3", "4", "5", "6", "7", "8", "9"]),
   ("1", ["0"]), ("2", ["0"]), ("3", ["0"]), ("4", ["0"]), ("5", ["0"]),
   ("6", ["0"]), ("7", ["0"]), ("8", ["0"]), ("9", ["0"])]

/-- Two-node graph used to instantiate the improver claims. -/
def rwG : Graph := ⟨[(0, [1]), (1, [0])]⟩

/-! ## Shared lemmas about the embedding -/

/-- Simple-path predicate of the specification: pairwise-distinct node ids
and every consecutive pair an edge of the graph. -/
def IsSimplePath (g : Graph) (p : List Nat) : Prop :=
  p.Nodup ∧ p.Chain' g.edge

/-- Values returned by `get_neighbors` sit inside the flattened value lists. -/
def Graph.allNeighborValues (g : Graph) : List Nat :=
  g.adjacency.flatMap Prod.snd

/-- Structural invariant on the working path of a search state. -/
def GoodPath (g : Graph) (st : SState) : Prop :=
  st.path ≠ [] ∧ st.path.Nodup ∧ st.path.Chain' g.edge ∧ ∀ x ∈ st.path, x ∈ st.visited

/-- Structural invariant on the best cells of a search state. -/
def GoodBest (g : Graph) (st : SState) : Prop :=
  st.bestPath.Nodup ∧ st.bestPath.Chain' g.edge ∧ st.bestLen = st.bestPath.length

/-- Structural capacity invariant: at most 2048 nodes, every neighbour list
at most 8 long. -/
def CapOk (g : Graph) : Prop :=
  g.adjacency.length ≤ MAX_NODE_COUNT ∧ ∀ p ∈ g.adjacency, p.2.length ≤ 8

/-- Invariant of the improver's best cells relative to the original input
path `P0`: the best length mirrors the best path, dominates the input, and
the best path is the input itself unless strictly longer. -/
def RWInv (P0 : List Nat) (st : RWState) : Prop :=
  st.bestLength = st.bestPath.length ∧
  P0.length ≤ st.bestLength ∧
  (st.bestPath = P0 ∨ P0.length < st.bestLength)

/-! ## Theorems -/

theorem NSet.mem_set {v : NSet} {n m : Nat} : m ∈ v.set n ↔ m = n ∨ m ∈ v := by
  unfold NSet.set
  split
  · constructor
    · exact fun h => Or.inr h
    · rintro (rfl | h) <;> assumption
  · simp [or_comm]

theorem NSet.clear_set {v : NSet} {n : Nat} (h : n ∉ v) : (v.set n).clear n = v := by
  unfold NSet.set NSet.clear
  rw [if_neg h]
  simp only [List.filter_cons]
  have : (n ≠ n) = False := by simp
  simp only [decide_eq_true_eq]
  rw [if_neg (by simp)]
  exact List.filter_eq_self.mpr (fun a ha => by
    simp only [decide_eq_true_eq]
    exact fun hc => h (hc ▸ ha))

theorem NSet.not_mem_clear {v : NSet} {n : Nat} : n ∉ v.clear n := by
  unfold NSet.clear
  intro h
  have := (List.mem_filter.mp h).2
  simp at this

theorem verifyNoDup_iff (path : List Nat) :
    ∀ seen : NSet, verifyNoDup seen path = true ↔ path.Nodup ∧ ∀ x ∈ path, x ∉ seen := by
  induction path with
  | nil => intro seen; simp [verifyNoDup]
  | cons n rest ih =>
    intro seen
    unfold verifyNoDup
    by_cases h : n ∈ seen
    · simp only [if_pos h]
      constructor
      · intro hc; cases hc
      · rintro ⟨-, hall⟩; exact absurd h (hall n (by simp))
    · simp only [if_neg h]
      rw [ih]
      constructor
      · rintro ⟨hnd, hall⟩
        refine ⟨List.nodup_cons.mpr ⟨fun hc => ?_, hnd⟩, ?_⟩
        · exact absurd (NSet.mem_set.mpr (Or.inl rfl)) (fun hx => (hall n hc) hx)
        · intro x hx
          rcases List.mem_cons.mp hx with rfl | hx'
          · exact h
          · intro hxs
            exact (hall x hx') (NSet.mem_set.mpr (Or.inr hxs))
      · rintro ⟨hnd, hall⟩
        rcases List.nodup_cons.mp hnd with ⟨hn, hrest⟩
        refine ⟨hrest, ?_⟩
        intro x hx hxs
        rcases NSet.mem_set.mp hxs with rfl | hxs'
        · exact hn hx
        · exact (hall x (by simp [hx])) hxs'

theorem verifyEdges_iff (g : Graph) (path : List Nat) :
    verifyEdges g path = true ↔ path.Chain' g.edge := by
  induction path with
  | nil => simp [verifyEdges]
  | cons a rest ih =>
    cases rest with
    | nil => simp [verifyEdges]
    | cons b rest' =>
      unfold verifyEdges
      rw [Bool.and_eq_true, decide_eq_true_eq, List.chain'_cons, ih]
      exact Iff.rfl

/-- Soundness and completeness of the validator against the mathematical
notion of a simple path. -/
theorem verify_path_iff (g : Graph) (path : List Nat) :
    verify_path g path = true ↔ path.Nodup ∧ path.Chain' g.edge := by
  unfold verify_path
  cases path with
  | nil => simp
  | cons a rest =>
    rw [if_neg (by simp), Bool.and_eq_true, verifyEdges_iff,
      verifyNoDup_iff]
    simp

theorem lookupPairMem {l : List (Nat × List Nat)} {k : Nat} {v : List Nat}
    (h : l.lookup k = some v) : (k, v) ∈ l := by
  induction l with
  | nil => simp [List.lookup] at h
  | cons p rest ih =>
    cases p with
    | mk a b =>
      rw [List.lookup_cons] at h
      by_cases hk : k = a
      · subst hk
        simp at h
        simp [h]
      · have hba : (k == a) = false := by simp [hk]
        rw [hba] at h
        exact List.mem_cons_of_mem _ (ih h)

theorem Graph.lookup_mem {g : Graph} {k : Nat} {v : List Nat}
    (h : g.adjacency.lookup k = some v) : (k, v) ∈ g.adjacency :=
  lookupPairMem h


theorem Graph.get_neighbors_subset_values {g : Graph} {a b : Nat}
    (h : b ∈ g.get_neighbors a) : b ∈ g.allNeighborValues := by
  unfold Graph.get_neighbors at h
  cases hl : g.adjacency.lookup a with
  | none => rw [hl] at h; simp at h
  | some v =>
    rw [hl] at h
    simp only [Option.getD_some] at h
    unfold Graph.allNeighborValues
    exact List.mem_flatMap.mpr ⟨(a, v), Graph.lookup_mem hl, h⟩

theorem Graph.get_neighbors_subset_nodes {g : Graph} (hw : g.Wellformed) {a b : Nat}
    (h : b ∈ g.get_neighbors a) : b ∈ g.nodes := by
  unfold Graph.get_neighbors at h
  cases hl : g.adjacency.lookup a with
  | none => rw [hl] at h; simp at h
  | some v =>
    rw [hl] at h
    simp only [Option.getD_some] at h
    exact hw.2 (a, v) (Graph.lookup_mem hl) b h

theorem getLast?_of_getLastD {l : List Nat} (h : l ≠ []) {x : Nat}
    (hx : x ∈ l.getLast?) : x = l.getLastD 0 := by
  rw [List.getLastD_eq_getLast?, List.getLast?_eq_getLast l h] at *
  simp only [Option.mem_def, Option.some.injEq] at hx
  simp [List.getLast?_eq_getLast l h, hx]

theorem chain'_push {g : Graph} {l : List Nat} {n : Nat} (hl : l.Chain' g.edge)
    (hne : l ≠ []) (he : g.edge (l.getLastD 0) n) : (l ++ [n]).Chain' g.edge := by
  rw [List.chain'_append]
  refine ⟨hl, List.chain'_singleton _, ?_⟩
  intro x hx y hy
  simp only [List.head?_cons, Option.mem_def, Option.some.injEq] at hy
  rw [getLast?_of_getLastD hne hx, ← hy] at *
  exact he

theorem nodup_push {l : List Nat} {n : Nat} (hl : l.Nodup) (hn : n ∉ l) :
    (l ++ [n]).Nodup := by
  rw [List.nodup_append]
  exact ⟨hl, List.nodup_singleton _, by
    intro x hx hy
    simp only [List.mem_singleton] at hy
    exact hn (hy ▸ hx)⟩


theorem orderNeighbors_subset {g : Graph} {depth : Nat} {ns : List Nat} {n : Nat}
    (h : n ∈ orderNeighbors g depth ns) : n ∈ ns := by
  unfold orderNeighbors at h
  split at h
  · split at h
    · exact List.mem_mergeSort.mp h
    · split at h <;> exact List.mem_mergeSort.mp h
  · exact h

theorem bnbGo_succ (g : Graph) (faces : List (List Nat)) (fuel depth : Nat) (st : SState) :
    bnbGo g faces (fuel + 1) depth st =
      if bnb_prunes g faces st.path st.visited st.bestLen then st
      else
        (orderNeighbors g depth
            ((g.get_neighbors (st.path.getLastD 0)).filter
              (fun n => decide (n ∉
                (if st.bestLen < st.path.length then
                  { st with bestLen := st.path.length, bestPath := st.path }
                 else st).visited)))).foldl
          (fun s neighbor =>
            let s1 := bnbGo g faces fuel (depth + 1)
              { s with path := s.path ++ [neighbor], visited := s.visited.set neighbor }
            { s1 with path := s1.path.dropLast, visited := s1.visited.clear neighbor })
          (if st.bestLen < st.path.length then
            { st with bestLen := st.path.length, bestPath := st.path }
           else st) := rfl

theorem bnbGo_spec (g : Graph) (faces : List (List Nat)) (S : List Nat)
    (hS : ∀ a b, b ∈ g.get_neighbors a → b ∈ S) :
    ∀ fuel depth st, GoodPath g st → GoodBest g st →
      (∀ x ∈ st.path, x ∈ S) → (∀ x ∈ st.bestPath, x ∈ S) →
      (bnbGo g faces fuel depth st).path = st.path ∧
      (bnbGo g faces fuel depth st).visited = st.visited ∧
      GoodBest g (bnbGo g faces fuel depth st) ∧
      st.bestLen ≤ (bnbGo g faces fuel depth st).bestLen ∧
      (∀ x ∈ (bnbGo g faces fuel depth st).bestPath, x ∈ S) := by
  intro fuel
  induction fuel with
  | zero =>
    intro depth st hGP hGB hPS hBS
    exact ⟨rfl, rfl, hGB, Nat.le_refl _, hBS⟩
  | succ fuel ih =>
    intro depth st hGP hGB hPS hBS
    obtain ⟨hne, hnd, hch, hpv⟩ := hGP
    rw [bnbGo_succ]
    by_cases hpr : bnb_prunes g faces st.path st.visited st.bestLen = true
    · rw [if_pos hpr]
      exact ⟨rfl, rfl, hGB, Nat.le_refl _, hBS⟩
    · rw [if_neg hpr]
      -- the best-update step
      set st1 := (if st.bestLen < st.path.length then
          { st with bestLen := st.path.length, bestPath := st.path }
        else st) with hst1
      have hst1path : st1.path = st.path := by
        rw [hst1]; split <;> rfl
      have hst1vis : st1.visited = st.visited := by
        rw [hst1]; split <;> rfl
      have hst1best : GoodBest g st1 ∧ st.bestLen ≤ st1.bestLen ∧
          (∀ x ∈ st1.bestPath, x ∈ S) := by
        rw [hst1]; split
        · exact ⟨⟨hnd, hch, rfl⟩, Nat.le_of_lt (by assumption), hPS⟩
        · exact ⟨hGB, Nat.le_refl _, hBS⟩
      -- the child-expansion fold
      have hfold : ∀ ns : List Nat,
          (∀ n ∈ ns, n ∈ g.get_neighbors (st.path.getLastD 0) ∧ n ∉ st.visited) →
          ∀ s : SState, s.path = st.path → s.visited = st.visited →
            GoodBest g s → (∀ x ∈ s.bestPath, x ∈ S) →
            (ns.foldl
              (fun s neighbor =>
                let s1 := bnbGo g faces fuel (depth + 1)
                  { s with path := s.path ++ [neighbor], visited := s.visited.set neighbor }
                { s1 with path := s1.path.dropLast, visited := s1.visited.clear neighbor })
              s).path = st.path ∧
            (ns.foldl
              (fun s neighbor =>
                let s1 := bnbGo g faces fuel (depth + 1)
                  { s with path := s.path ++ [neighbor], visited := s.visited.set neighbor }
                { s1 with path := s1.path.dropLast, visited := s1.visited.clear neighbor })
              s).visited = st.visited ∧
            GoodBest g (ns.foldl
              (fun s neighbor =>
                let s1 := bnbGo g faces fuel (depth + 1)
                  { s with path := s.path ++ [neighbor], visited := s.visited.set neighbor }
                { s1 with path := s1.path.dropLast, visited := s1.visited.clear neighbor })
              s) ∧
            s.bestLen ≤ (ns.foldl
              (fun s neighbor =>
                let s1 := bnbGo g faces fuel (depth + 1)
                  { s with path := s.path ++ [neighbor], visited := s.visited.set neighbor }
                { s1 with path := s1.path.dropLast, visited := s1.visited.clear neighbor })
              s).bestLen ∧
            (∀ x ∈ (ns.foldl
              (fun s neighbor =>
                let s1 := bnbGo g faces fuel (depth + 1)
                  { s with path := s.path ++ [neighbor], visited := s.visited.set neighbor }
                { s1 with path := s1.path.dropLast, visited := s1.visited.clear neighbor })
              s).bestPath, x ∈ S) := by
        intro ns
        induction ns with
        | nil =>
          intro _ s hp hv hgb hbs
          exact ⟨hp, hv, hgb, Nat.le_refl _, hbs⟩
        | cons n rest ihr =>
          intro hns s hp hv hgb hbs
          obtain ⟨hnEdge, hnVis⟩ := hns n (List.mem_cons_self n rest)
          have hnPath : n ∉ s.path := fun hc => hnVis (hpv n (hp ▸ hc))
          simp only [List.foldl_cons]
          -- the pushed state
          have hpushGP : GoodPath g
              { s with path := s.path ++ [n], visited := s.visited.set n } := by
            refine ⟨by simp, ?_, ?_, ?_⟩
            · show (s.path ++ [n]).Nodup
              rw [hp] at hnPath ⊢
              exact nodup_push hnd hnPath
            · show (s.path ++ [n]).Chain' g.edge
              rw [hp]
              exact chain'_push hch hne hnEdge
            · intro x hx
              rcases List.mem_append.mp hx with hx' | hx'
              · exact NSet.mem_set.mpr (Or.inr (hv ▸ hpv x (hp ▸ hx')))
              · exact NSet.mem_set.mpr (Or.inl (List.mem_singleton.mp hx'))
          have hpushPS : ∀ x ∈ s.path ++ [n], x ∈ S := by
            intro x hx
            rcases List.mem_append.mp hx with hx' | hx'
            · exact hPS x (hp ▸ hx')
            · exact (List.mem_singleton.mp hx') ▸ hS _ _ hnEdge
          obtain ⟨c1, c2, c3, c4, c5⟩ := ih (depth + 1)
            { s with path := s.path ++ [n], visited := s.visited.set n }
            hpushGP hgb hpushPS hbs
          -- the popped state
          have hpopPath :
              ((bnbGo g faces fuel (depth + 1)
                { s with path := s.path ++ [n], visited := s.visited.set n }).path).dropLast
                = st.path := by
            rw [c1]
            show (s.path ++ [n]).dropLast = st.path
            rw [hp]
            simp
          have hpopVis :
              ((bnbGo g faces fuel (depth + 1)
                { s with path := s.path ++ [n], visited := s.visited.set n }).visited).clear n
                = st.visited := by
            rw [c2]
            show (s.visited.set n).clear n = st.visited
            rw [hv]
            exact NSet.clear_set hnVis
          have hrest := ihr (fun m hm => hns m (List.mem_cons_of_mem n hm))
            { bnbGo g faces fuel (depth + 1)
                { s with path := s.path ++ [n], visited := s.visited.set n } with
              path := (bnbGo g faces fuel (depth + 1)
                { s with path := s.path ++ [n], visited := s.visited.set n }).path.dropLast,
              visited := (bnbGo g faces fuel (depth + 1)
                { s with path := s.path ++ [n], visited := s.visited.set n }).visited.clear n }
            hpopPath hpopVis c3 c5
          exact ⟨hrest.1, hrest.2.1, hrest.2.2.1,
            Nat.le_trans c4 hrest.2.2.2.1, hrest.2.2.2.2⟩
      -- apply the fold invariant to the ordered neighbour list
      have hmem : ∀ n ∈ orderNeighbors g depth
          ((g.get_neighbors (st.path.getLastD 0)).filter
            (fun n => decide (n ∉ st1.visited))),
          n ∈ g.get_neighbors (st.path.getLastD 0) ∧ n ∉ st.visited := by
        intro n hn
        have := orderNeighbors_subset hn
        rcases List.mem_filter.mp this with ⟨h1, h2⟩
        rw [decide_eq_true_eq, hst1vis] at h2
        exact ⟨h1, h2⟩
      have := hfold _ hmem st1 hst1path hst1vis hst1best.1 hst1best.2.2
      exact ⟨this.1, this.2.1, this.2.2.1,
        Nat.le_trans hst1best.2.1 this.2.2.2.1, this.2.2.2.2⟩

theorem backtrack_succ (g : Graph) (fuel : Nat) (st : SState) :
    backtrack_exact_standard g (fuel + 1) st =
      (g.get_neighbors
          ((if st.bestLen < st.path.length then
              { st with bestLen := st.path.length, bestPath := st.path }
            else st).path.getLastD 0)).foldl
        (fun s neighbor =>
          if neighbor ∈ s.visited then s
          else
            let s1 := backtrack_exact_standard g fuel
              { s with path := s.path ++ [neighbor], visited := s.visited.set neighbor }
            { s1 with path := s1.path.dropLast, visited := s1.visited.clear neighbor })
        (if st.bestLen < st.path.length then
          { st with bestLen := st.path.length, bestPath := st.path }
         else st) := rfl

theorem backtrack_spec (g : Graph) (S : List Nat)
    (hS : ∀ a b, b ∈ g.get_neighbors a → b ∈ S) :
    ∀ fuel st, GoodPath g st → GoodBest g st →
      (∀ x ∈ st.path, x ∈ S) → (∀ x ∈ st.bestPath, x ∈ S) →
      (backtrack_exact_standard g fuel st).path = st.path ∧
      (backtrack_exact_standard g fuel st).visited = st.visited ∧
      GoodBest g (backtrack_exact_standard g fuel st) ∧
      st.bestLen ≤ (backtrack_exact_standard g fuel st).bestLen ∧
      (∀ x ∈ (backtrack_exact_standard g fuel st).bestPath, x ∈ S) ∧
      (0 < fuel → st.path.length ≤ (backtrack_exact_standard g fuel st).bestLen) := by
  intro fuel
  induction fuel with
  | zero =>
    intro st hGP hGB hPS hBS
    exact ⟨rfl, rfl, hGB, Nat.le_refl _, hBS, fun h => absurd h (by simp)⟩
  | succ fuel ih =>
    intro st hGP hGB hPS hBS
    obtain ⟨hne, hnd, hch, hpv⟩ := hGP
    rw [backtrack_succ]
    set st1 := (if st.bestLen < st.path.length then
        { st with bestLen := st.path.length, bestPath := st.path }
      else st) with hst1
    have hst1path : st1.path = st.path := by
      rw [hst1]; split <;> rfl
    have hst1vis : st1.visited = st.visited := by
      rw [hst1]; split <;> rfl
    have hst1len : st.path.length ≤ st1.bestLen := by
      rw [hst1]; split
      · exact Nat.le_refl _
      · omega
    have hst1best : GoodBest g st1 ∧ st.bestLen ≤ st1.bestLen ∧
        (∀ x ∈ st1.bestPath, x ∈ S) := by
      rw [hst1]; split
      · exact ⟨⟨hnd, hch, rfl⟩, Nat.le_of_lt (by assumption), hPS⟩
      · exact ⟨hGB, Nat.le_refl _, hBS⟩
    have hfold : ∀ ns : List Nat,
        (∀ n ∈ ns, n ∈ g.get_neighbors (st.path.getLastD 0)) →
        ∀ s : SState, s.path = st.path → s.visited = st.visited →
          GoodBest g s → (∀ x ∈ s.bestPath, x ∈ S) →
          (ns.foldl
            (fun s neighbor =>
              if neighbor ∈ s.visited then s
              else
                let s1 := backtrack_exact_standard g fuel
                  { s with path := s.path ++ [neighbor], visited := s.visited.set neighbor }
                { s1 with path := s1.path.dropLast, visited := s1.visited.clear neighbor })
            s).path = st.path ∧
          (ns.foldl
            (fun s neighbor =>
              if neighbor ∈ s.visited then s
              else
                let s1 := backtrack_exact_standard g fuel
                  { s with path := s.path ++ [neighbor], visited := s.visited.set neighbor }
                { s1 with path := s1.path.dropLast, visited := s1.visited.clear neighbor })
            s).visited = st.visited ∧
          GoodBest g (ns.foldl
            (fun s neighbor =>
              if neighbor ∈ s.visited then s
              else
                let s1 := backtrack_exact_standard g fuel
                  { s with path := s.path ++ [neighbor], visited := s.visited.set neighbor }
                { s1 with path := s1.path.dropLast, visited := s1.visited.clear neighbor })
            s) ∧
          s.bestLen ≤ (ns.foldl
            (fun s neighbor =>
              if neighbor ∈ s.visited then s
              else
                let s1 := backtrack_exact_standard g fuel
                  { s with path := s.path ++ [neighbor], visited := s.visited.set neighbor }
                { s1 with path := s1.path.dropLast, visited := s1.visited.clear neighbor })
            s).bestLen ∧
          (∀ x ∈ (ns.foldl
            (fun s neighbor =>
              if neighbor ∈ s.visited then s
              else
                let s1 := backtrack_exact_standard g fuel
                  { s with path := s.path ++ [neighbor], visited := s.visited.set neighbor }
                { s1 with path := s1.path.dropLast, visited := s1.visited.clear neighbor })
            s).bestPath, x ∈ S) := by
      intro ns
      induction ns with
      | nil =>
        intro _ s hp hv hgb hbs
        exact ⟨hp, hv, hgb, Nat.le_refl _, hbs⟩
      | cons n rest ihr =>
        intro hns s hp hv hgb hbs
        have hnEdge : n ∈ g.get_neighbors (st.path.getLastD 0) :=
          hns n (List.mem_cons_self n rest)
        simp only [List.foldl_cons]
        by_cases hnv : n ∈ s.visited
        · rw [if_pos hnv]
          exact ihr (fun m hm => hns m (List.mem_cons_of_mem n hm)) s hp hv hgb hbs
        · rw [if_neg hnv]
          have hnVis : n ∉ st.visited := hv ▸ hnv
          have hnPath : n ∉ s.path := fun hc => hnVis (hpv n (hp ▸ hc))
          have hpushGP : GoodPath g
              { s with path := s.path ++ [n], visited := s.visited.set n } := by
            refine ⟨by simp, ?_, ?_, ?_⟩
            · show (s.path ++ [n]).Nodup
              rw [hp] at hnPath ⊢
              exact nodup_push hnd hnPath
            · show (s.path ++ [n]).Chain' g.edge
              rw [hp]
              exact chain'_push hch hne hnEdge
            · intro x hx
              rcases List.mem_append.mp hx with hx' | hx'
              · exact NSet.mem_set.mpr (Or.inr (hv ▸ hpv x (hp ▸ hx')))
              · exact NSet.mem_set.mpr (Or.inl (List.mem_singleton.mp hx'))
          have hpushPS : ∀ x ∈ s.path ++ [n], x ∈ S := by
            intro x hx
            rcases List.mem_append.mp hx with hx' | hx'
            · exact hPS x (hp ▸ hx')
            · exact (List.mem_singleton.mp hx') ▸ hS _ _ hnEdge
          obtain ⟨c1, c2, c3, c4, c5, -⟩ := ih
            { s with path := s.path ++ [n], visited := s.visited.set n }
            hpushGP hgb hpushPS hbs
          have hpopPath :
              ((backtrack_exact_standard g fuel
                { s with path := s.path ++ [n], visited := s.visited.set n }).path).dropLast
                = st.path := by
            rw [c1]
            show (s.path ++ [n]).dropLast = st.path
            rw [hp]
            simp
          have hpopVis :
              ((backtrack_exact_standard g fuel
                { s with path := s.path ++ [n], visited := s.visited.set n }).visited).clear n
                = st.visited := by
            rw [c2]
            show (s.visited.set n).clear n = st.visited
            rw [hv]
            exact NSet.clear_set (hv ▸ hnv)
          have hrest := ihr (fun m hm => hns m (List.mem_cons_of_mem n hm))
            { backtrack_exact_standard g fuel
                { s with path := s.path ++ [n], visited := s.visited.set n } with
              path := (backtrack_exact_standard g fuel
                { s with path := s.path ++ [n], visited := s.visited.set n }).path.dropLast,
              visited := (backtrack_exact_standard g fuel
                { s with path := s.path ++ [n], visited := s.visited.set n }).visited.clear n }
            hpopPath hpopVis c3 c5
          exact ⟨hrest.1, hrest.2.1, hrest.2.2.1,
            Nat.le_trans c4 hrest.2.2.2.1, hrest.2.2.2.2⟩
    have hmem : ∀ n ∈ g.get_neighbors (st1.path.getLastD 0),
        n ∈ g.get_neighbors (st.path.getLastD 0) := by
      rw [hst1path]
      exact fun n hn => hn
    have hres := hfold _ hmem st1 hst1path hst1vis hst1best.1 hst1best.2.2
    exact ⟨hres.1, hres.2.1, hres.2.2.1,
      Nat.le_trans hst1best.2.1 hres.2.2.2.1, hres.2.2.2.2,
      fun _ => Nat.le_trans hst1len hres.2.2.2.1⟩

theorem backtrack_bestLen_mono (g : Graph) :
    ∀ fuel st, st.bestLen ≤ (backtrack_exact_standard g fuel st).bestLen := by
  intro fuel
  induction fuel with
  | zero => intro st; exact Nat.le_refl _
  | succ fuel ih =>
    intro st
    rw [backtrack_succ]
    have hstep : ∀ ns : List Nat, ∀ s : SState,
        s.bestLen ≤ (ns.foldl
          (fun s neighbor =>
            if neighbor ∈ s.visited then s
            else
              let s1 := backtrack_exact_standard g fuel
                { s with path := s.path ++ [neighbor], visited := s.visited.set neighbor }
              { s1 with path := s1.path.dropLast, visited := s1.visited.clear neighbor })
          s).bestLen := by
      intro ns
      induction ns with
      | nil => intro s; exact Nat.le_refl _
      | cons n rest ihr =>
        intro s
        simp only [List.foldl_cons]
        by_cases hnv : n ∈ s.visited
        · rw [if_pos hnv]; exact ihr s
        · rw [if_neg hnv]
          refine Nat.le_trans ?_ (ihr _)
          exact ih { s with path := s.path ++ [n], visited := s.visited.set n }
    refine Nat.le_trans ?_ (hstep _ _)
    split
    · rename_i h
      exact Nat.le_of_lt h
    · exact Nat.le_refl _

theorem backtrackFold_bestLen_mono (g : Graph) (fuel : Nat) :
    ∀ ns : List Nat, ∀ s : SState,
      s.bestLen ≤ (ns.foldl
        (fun s neighbor =>
          if neighbor ∈ s.visited then s
          else
            let s1 := backtrack_exact_standard g fuel
              { s with path := s.path ++ [neighbor], visited := s.visited.set neighbor }
            { s1 with path := s1.path.dropLast, visited := s1.visited.clear neighbor })
        s).bestLen := by
  intro ns
  induction ns with
  | nil => intro s; exact Nat.le_refl _
  | cons n rest ihr =>
    intro s
    simp only [List.foldl_cons]
    by_cases hnv : n ∈ s.visited
    · rw [if_pos hnv]; exact ihr s
    · rw [if_neg hnv]
      refine Nat.le_trans ?_ (ihr _)
      exact backtrack_bestLen_mono g fuel
        { s with path := s.path ++ [n], visited := s.visited.set n }

/-- Frame property of the branch-and-bound search: the working path and the
visited set come back exactly as they went in; only the best cells may move. -/
theorem bnbGo_frame (g : Graph) (faces : List (List Nat)) :
    ∀ fuel depth st, (bnbGo g faces fuel depth st).path = st.path ∧
      (bnbGo g faces fuel depth st).visited = st.visited := by
  intro fuel
  induction fuel with
  | zero => intro depth st; exact ⟨rfl, rfl⟩
  | succ fuel ih =>
    intro depth st
    rw [bnbGo_succ]
    by_cases hpr : bnb_prunes g faces st.path st.visited st.bestLen = true
    · rw [if_pos hpr]; exact ⟨rfl, rfl⟩
    · rw [if_neg hpr]
      set st1 := (if st.bestLen < st.path.length then
          { st with bestLen := st.path.length, bestPath := st.path }
        else st) with hst1
      have hst1path : st1.path = st.path := by rw [hst1]; split <;> rfl
      have hst1vis : st1.visited = st.visited := by rw [hst1]; split <;> rfl
      have hfold : ∀ ns : List Nat, (∀ n ∈ ns, n ∉ st.visited) →
          ∀ s : SState, s.path = st.path → s.visited = st.visited →
          (ns.foldl
            (fun s neighbor =>
              let s1 := bnbGo g faces fuel (depth + 1)
                { s with path := s.path ++ [neighbor], visited := s.visited.set neighbor }
              { s1 with path := s1.path.dropLast, visited := s1.visited.clear neighbor })
            s).path = st.path ∧
          (ns.foldl
            (fun s neighbor =>
              let s1 := bnbGo g faces fuel (depth + 1)
                { s with path := s.path ++ [neighbor], visited := s.visited.set neighbor }
              { s1 with path := s1.path.dropLast, visited := s1.visited.clear neighbor })
            s).visited = st.visited := by
        intro ns
        induction ns with
        | nil => intro _ s hp hv; exact ⟨hp, hv⟩
        | cons n rest ihr =>
          intro hns s hp hv
          have hnVis : n ∉ st.visited := hns n (List.mem_cons_self n rest)
          simp only [List.foldl_cons]
          obtain ⟨f1, f2⟩ := ih (depth + 1)
            { s with path := s.path ++ [n], visited := s.visited.set n }
          refine ihr (fun m hm => hns m (List.mem_cons_of_mem n hm)) _ ?_ ?_
          · show ((bnbGo g faces fuel (depth + 1)
              { s with path := s.path ++ [n], visited := s.visited.set n }).path).dropLast
              = st.path
            rw [f1]
            show (s.path ++ [n]).dropLast = st.path
            rw [hp]; simp
          · show ((bnbGo g faces fuel (depth + 1)
              { s with path := s.path ++ [n], visited := s.visited.set n }).visited).clear n
              = st.visited
            rw [f2]
            show (s.visited.set n).clear n = st.visited
            rw [hv]
            exact NSet.clear_set hnVis
      have hmem : ∀ n ∈ orderNeighbors g depth
          ((g.get_neighbors (st.path.getLastD 0)).filter
            (fun n => decide (n ∉ st1.visited))), n ∉ st.visited := by
        intro n hn
        have h2 := (List.mem_filter.mp (orderNeighbors_subset hn)).2
        rw [decide_eq_true_eq, hst1vis] at h2
        exact h2
      exact hfold _ hmem st1 hst1path hst1vis

/-- Frame property of the exhaustive backtracking search. -/
theorem backtrack_frame (g : Graph) :
    ∀ fuel st, (backtrack_exact_standard g fuel st).path = st.path ∧
      (backtrack_exact_standard g fuel st).visited = st.visited := by
  intro fuel
  induction fuel with
  | zero => intro st; exact ⟨rfl, rfl⟩
  | succ fuel ih =>
    intro st
    rw [backtrack_succ]
    set st1 := (if st.bestLen < st.path.length then
        { st with bestLen := st.path.length, bestPath := st.path }
      else st) with hst1
    have hst1path : st1.path = st.path := by rw [hst1]; split <;> rfl
    have hst1vis : st1.visited = st.visited := by rw [hst1]; split <;> rfl
    have hfold : ∀ ns : List Nat, ∀ s : SState, s.path = st.path → s.visited = st.visited →
        (ns.foldl
          (fun s neighbor =>
            if neighbor ∈ s.visited then s
            else
              let s1 := backtrack_exact_standard g fuel
                { s with path := s.path ++ [neighbor], visited := s.visited.set neighbor }
              { s1 with path := s1.path.dropLast, visited := s1.visited.clear neighbor })
          s).path = st.path ∧
        (ns.foldl
          (fun s neighbor =>
            if neighbor ∈ s.visited then s
            else
              let s1 := backtrack_exact_standard g fuel
                { s with path := s.path ++ [neighbor], visited := s.visited.set neighbor }
              { s1 with path := s1.path.dropLast, visited := s1.visited.clear neighbor })
          s).visited = st.visited := by
      intro ns
      induction ns with
      | nil => intro s hp hv; exact ⟨hp, hv⟩
      | cons n rest ihr =>
        intro s hp hv
        simp only [List.foldl_cons]
        by_cases hnv : n ∈ s.visited
        · rw [if_pos hnv]; exact ihr s hp hv
        · rw [if_neg hnv]
          obtain ⟨f1, f2⟩ := ih
            { s with path := s.path ++ [n], visited := s.visited.set n }
          refine ihr _ ?_ ?_
          · show ((backtrack_exact_standard g fuel
              { s with path := s.path ++ [n], visited := s.visited.set n }).path).dropLast
              = st.path
            rw [f1]
            show (s.path ++ [n]).dropLast = st.path
            rw [hp]; simp
          · show ((backtrack_exact_standard g fuel
              { s with path := s.path ++ [n], visited := s.visited.set n }).visited).clear n
              = st.visited
            rw [f2]
            show (s.visited.set n).clear n = st.visited
            rw [← hv]
            exact NSet.clear_set hnv
    exact hfold _ st1 hst1path hst1vis

/-- With at least one unit of fuel the search records at least the current
path length in the best cell. -/
theorem backtrack_ge_current (g : Graph) (fuel : Nat) (st : SState) (h : 0 < fuel) :
    st.path.length ≤ (backtrack_exact_standard g fuel st).bestLen := by
  cases fuel with
  | zero => omega
  | succ fuel =>
    rw [backtrack_succ]
    refine Nat.le_trans ?_ (backtrackFold_bestLen_mono g fuel _ _)
    split
    · exact Nat.le_refl _
    · rename_i h'
      omega

/-- Completeness of the exhaustive search: with fuel dominating the extension
length, the final best length dominates any simple extension of the current
path through unvisited territory. -/
theorem backtrack_reach (g : Graph) :
    ∀ (ext : List Nat) (fuel : Nat) (st : SState),
      ext.length + 1 ≤ fuel →
      st.path ≠ [] →
      (st.path ++ ext).Chain' g.edge →
      (st.path ++ ext).Nodup →
      (∀ x ∈ st.path, x ∈ st.visited) →
      (∀ x ∈ ext, x ∉ st.visited) →
      st.path.length + ext.length ≤ (backtrack_exact_standard g fuel st).bestLen := by
  intro ext
  induction ext with
  | nil =>
    intro fuel st hfuel _ _ _ _ _
    simpa using backtrack_ge_current g fuel st (by omega)
  | cons e ext ih =>
    intro fuel st hfuel hne hch hnd hpv hunv
    have hchSplit := List.chain'_append.mp hch
    have heEdge : e ∈ g.get_neighbors (st.path.getLastD 0) := by
      have := hchSplit.2.2 (st.path.getLastD 0)
        (by
          rw [List.getLastD_eq_getLast?, List.getLast?_eq_getLast st.path hne]
          simp [List.getLast?_eq_getLast st.path hne])
        e (by simp)
      exact this
    have heVis : e ∉ st.visited := hunv e (by simp)
    have hndAll := hnd
    have hndTail : (e :: ext).Nodup := (List.nodup_append.mp hnd).2.1
    have heExt : e ∉ ext := (List.nodup_cons.mp hndTail).1
    cases fuel with
    | zero => omega
    | succ fuel =>
      rw [backtrack_succ]
      set st1 := (if st.bestLen < st.path.length then
          { st with bestLen := st.path.length, bestPath := st.path }
        else st) with hst1
      have hst1path : st1.path = st.path := by rw [hst1]; split <;> rfl
      have hst1vis : st1.visited = st.visited := by rw [hst1]; split <;> rfl
      have hfoldReach : ∀ ns : List Nat, e ∈ ns →
          ∀ s : SState, s.path = st.path → s.visited = st.visited →
          st.path.length + (ext.length + 1) ≤ (ns.foldl
            (fun s neighbor =>
              if neighbor ∈ s.visited then s
              else
                let s1 := backtrack_exact_standard g fuel
                  { s with path := s.path ++ [neighbor], visited := s.visited.set neighbor }
                { s1 with path := s1.path.dropLast, visited := s1.visited.clear neighbor })
            s).bestLen := by
        intro ns
        induction ns with
        | nil => intro h; cases h
        | cons n rest ihr =>
          intro hmemE s hp hv
          simp only [List.foldl_cons]
          by_cases hEq : n = e
          · subst hEq
            rw [if_neg (by rw [hv]; exact heVis)]
            have hchild := ih fuel
              { s with path := s.path ++ [n], visited := s.visited.set n }
              (by simpa using Nat.lt_of_succ_le hfuel)
              (by simp)
              (by
                show ((s.path ++ [n]) ++ ext).Chain' g.edge
                rw [List.append_assoc, hp]
                simpa using hch)
              (by
                show ((s.path ++ [n]) ++ ext).Nodup
                rw [List.append_assoc, hp]
                simpa using hnd)
              (by
                intro x hx
                rcases List.mem_append.mp hx with hx' | hx'
                · exact NSet.mem_set.mpr (Or.inr (hv ▸ hpv x (hp ▸ hx')))
                · exact NSet.mem_set.mpr (Or.inl (List.mem_singleton.mp hx')))
              (by
                intro x hx
                intro hcontra
                rcases NSet.mem_set.mp hcontra with rfl | hx'
                · exact heExt hx
                · exact (hunv x (List.mem_cons_of_mem n hx)) (hv ▸ hx'))
            refine Nat.le_trans ?_ (backtrackFold_bestLen_mono g fuel rest _)
            show st.path.length + (ext.length + 1) ≤
              (backtrack_exact_standard g fuel
                { s with path := s.path ++ [n], visited := s.visited.set n }).bestLen
            calc st.path.length + (ext.length + 1)
                = (s.path ++ [n]).length + ext.length := by
                  rw [hp]; simp; omega
              _ ≤ _ := hchild
          · have hmemE' : e ∈ rest := by
              rcases List.mem_cons.mp hmemE with h | h
              · exact absurd h.symm hEq
              · exact h
            by_cases hnv : n ∈ s.visited
            · rw [if_pos hnv]
              exact ihr hmemE' s hp hv
            · rw [if_neg hnv]
              obtain ⟨f1, f2⟩ := backtrack_frame g fuel
                { s with path := s.path ++ [n], visited := s.visited.set n }
              refine ihr hmemE' _ ?_ ?_
              · show ((backtrack_exact_standard g fuel
                  { s with path := s.path ++ [n], visited := s.visited.set n }).path).dropLast
                  = st.path
                rw [f1]
                show (s.path ++ [n]).dropLast = st.path
                rw [hp]; simp
              · show ((backtrack_exact_standard g fuel
                  { s with path := s.path ++ [n], visited := s.visited.set n }).visited).clear n
                  = st.visited
                rw [f2]
                show (s.visited.set n).clear n = st.visited
                rw [← hv]
                exact NSet.clear_set hnv
      have : e ∈ g.get_neighbors (st1.path.getLastD 0) := by rw [hst1path]; exact heEdge
      have hres := hfoldReach _ this st1 hst1path hst1vis
      simpa using hres

/-- Unfolding equation for `exact_longest_path_standard`. -/
theorem exact_longest_eq (g : Graph) :
    exact_longest_path_standard g =
      ((if (g.nodes.filter (fun node => (g.get_neighbors node).length ≤ 2)).length < 2
          then g.nodes
          else g.nodes.filter (fun node => (g.get_neighbors node).length ≤ 2)).foldl
        (fun (best : Nat × List Nat) start_node =>
          let r := backtrack_exact_standard g g.node_count
            { path := [start_node], visited := [start_node], bestLen := 0, bestPath := [] }
          if best.1 < r.bestLen then (r.bestLen, r.bestPath) else best)
        (0, [])).2 := rfl

/-- The start-fold of the exact solver keeps a valid best pair: the length
cell equals the path length and the path is a valid simple path. -/
theorem exactFold_valid (g : Graph) :
    ∀ (ns : List Nat), (∀ x ∈ ns, x ∈ g.nodes) → ∀ (acc : Nat × List Nat),
      acc.1 = acc.2.length → acc.2.Nodup → acc.2.Chain' g.edge →
      (ns.foldl
        (fun (best : Nat × List Nat) start_node =>
          let r := backtrack_exact_standard g g.node_count
            { path := [start_node], visited := [start_node], bestLen := 0, bestPath := [] }
          if best.1 < r.bestLen then (r.bestLen, r.bestPath) else best)
        acc).1 = ((ns.foldl
        (fun (best : Nat × List Nat) start_node =>
          let r := backtrack_exact_standard g g.node_count
            { path := [start_node], visited := [start_node], bestLen := 0, bestPath := [] }
          if best.1 < r.bestLen then (r.bestLen, r.bestPath) else best)
        acc).2).length ∧
      ((ns.foldl
        (fun (best : Nat × List Nat) start_node =>
          let r := backtrack_exact_standard g g.node_count
            { path := [start_node], visited := [start_node], bestLen := 0, bestPath := [] }
          if best.1 < r.bestLen then (r.bestLen, r.bestPath) else best)
        acc).2).Nodup ∧
      ((ns.foldl
        (fun (best : Nat × List Nat) start_node =>
          let r := backtrack_exact_standard g g.node_count
            { path := [start_node], visited := [start_node], bestLen := 0, bestPath := [] }
          if best.1 < r.bestLen then (r.bestLen, r.bestPath) else best)
        acc).2).Chain' g.edge := by
  intro ns
  induction ns with
  | nil =>
    intro _ acc h1 h2 h3
    exact ⟨h1, h2, h3⟩
  | cons start rest ih =>
    intro hns acc h1 h2 h3
    simp only [List.foldl_cons]
    have hinit : GoodPath g
        ({ path := [start], visited := [start], bestLen := 0, bestPath := [] } : SState) :=
      ⟨by simp, List.nodup_singleton _, List.chain'_singleton _, by simp⟩
    have hinitB : GoodBest g
        ({ path := [start], visited := [start], bestLen := 0, bestPath := [] } : SState) :=
      ⟨List.nodup_nil, List.chain'_nil, rfl⟩
    obtain ⟨-, -, hgb, -, -, -⟩ := backtrack_spec g (g.nodes ++ g.allNeighborValues)
      (fun a b hb => List.mem_append.mpr (Or.inr (Graph.get_neighbors_subset_values hb)))
      g.node_count
      { path := [start], visited := [start], bestLen := 0, bestPath := [] }
      hinit hinitB
      (by
        intro x hx
        have : x = start := by
          simpa using hx
        exact List.mem_append.mpr
          (Or.inl (this ▸ hns start (List.mem_cons_self start rest))))
      (by simp)
    · have hrest : ∀ x ∈ rest, x ∈ g.nodes :=
        fun x hx => hns x (List.mem_cons_of_mem start hx)
      obtain ⟨hb1, hb2, hb3⟩ := hgb
      split
      · exact ih hrest _ hb3 hb1 hb2
      · exact ih hrest _ h1 h2 h3

theorem exactFold_mono (g : Graph) :
    ∀ (ns : List Nat) (acc : Nat × List Nat),
      acc.1 ≤ (ns.foldl
        (fun (best : Nat × List Nat) start_node =>
          let r := backtrack_exact_standard g g.node_count
            { path := [start_node], visited := [start_node], bestLen := 0, bestPath := [] }
          if best.1 < r.bestLen then (r.bestLen, r.bestPath) else best)
        acc).1 := by
  intro ns
  induction ns with
  | nil => intro acc; exact Nat.le_refl _
  | cons start rest ih =>
    intro acc
    simp only [List.foldl_cons]
    refine Nat.le_trans ?_ (ih _)
    split
    · rename_i h
      exact Nat.le_of_lt h
    · exact Nat.le_refl _

theorem exactFold_ge (g : Graph) :
    ∀ (ns : List Nat) (acc : Nat × List Nat) (h : Nat), h ∈ ns →
      (backtrack_exact_standard g g.node_count
        { path := [h], visited := [h], bestLen := 0, bestPath := [] }).bestLen ≤
      (ns.foldl
        (fun (best : Nat × List Nat) start_node =>
          let r := backtrack_exact_standard g g.node_count
            { path := [start_node], visited := [start_node], bestLen := 0, bestPath := [] }
          if best.1 < r.bestLen then (r.bestLen, r.bestPath) else best)
        acc).1 := by
  intro ns
  induction ns with
  | nil => intro acc h hm; cases hm
  | cons start rest ih =>
    intro acc h hm
    rcases List.mem_cons.mp hm with rfl | hm'
    · simp only [List.foldl_cons]
      refine Nat.le_trans ?_ (exactFold_mono g rest _)
      split
      · exact Nat.le_refl _
      · rename_i hlt
        omega
    · simp only [List.foldl_cons]
      exact ih _ h hm'

theorem nodupSubsetLength {l l' : List Nat} (hnd : l.Nodup) (hsub : ∀ x ∈ l, x ∈ l') :
    l.length ≤ l'.length := by
  calc l.length = l.toFinset.card := (List.toFinset_card_of_nodup hnd).symm
    _ ≤ l'.toFinset.card := Finset.card_le_card (by
        intro x hx
        exact List.mem_toFinset.mpr (hsub x (List.mem_toFinset.mp hx)))
    _ ≤ l'.length := List.toFinset_card_le l'

/-- Completeness of the exact solver when every node is a start candidate
(fewer than two degree ≤ 2 nodes): its output is at least as long as any
simple path of the graph. -/
theorem exact_ge_path (g : Graph)
    (hallstarts : (g.nodes.filter (fun node => (g.get_neighbors node).length ≤ 2)).length < 2) :
    ∀ q : List Nat, q.Nodup → q.Chain' g.edge → (∀ x ∈ q, x ∈ g.nodes) →
      q.length ≤ (exact_longest_path_standard g).length := by
  intro q hnd hch hsub
  cases q with
  | nil => simp
  | cons h t =>
    have hlen : (h :: t).length ≤ g.node_count := by
      have := nodupSubsetLength hnd hsub
      simpa [Graph.node_count, Graph.nodes] using this
    have hreach := backtrack_reach g t g.node_count
      { path := [h], visited := [h], bestLen := 0, bestPath := [] }
      (by simpa using hlen)
      (by simp)
      (by simpa using hch)
      (by simpa using hnd)
      (by simp)
      (by
        intro x hx hc
        have : x = h := by simpa using hc
        subst this
        exact (List.nodup_cons.mp hnd).1 hx)
    have hh : h ∈ g.nodes := hsub h (List.mem_cons_self h t)
    rw [exact_longest_eq, if_pos hallstarts]
    have hvalid := exactFold_valid g g.nodes (fun x hx => hx) (0, []) rfl
      List.nodup_nil List.chain'_nil
    rw [← hvalid.1]
    refine Nat.le_trans ?_ (exactFold_ge g g.nodes (0, []) h hh)
    simp only [List.length_cons]
    calc t.length + 1 = 1 + t.length := by omega
      _ ≤ _ := by simpa using hreach

theorem nset_foldl_mem :
    ∀ (l : List Nat) (acc : NSet) (x : Nat),
      x ∈ l.foldl NSet.set acc ↔ x ∈ l ∨ x ∈ acc := by
  intro l
  induction l with
  | nil => intro acc x; simp
  | cons a rest ih =>
    intro acc x
    simp only [List.foldl_cons]
    rw [ih]
    constructor
    · rintro (h | h)
      · exact Or.inl (List.mem_cons_of_mem a h)
      · rcases NSet.mem_set.mp h with rfl | h'
        · exact Or.inl (List.mem_cons_self _ _)
        · exact Or.inr h'
    · rintro (h | h)
      · rcases List.mem_cons.mp h with rfl | h'
        · exact Or.inr (NSet.mem_set.mpr (Or.inl rfl))
        · exact Or.inl h'
      · exact Or.inr (NSet.mem_set.mpr (Or.inr h))

/-- The endpoint refinement never changes anything: the trim node lies on the
path, the exclusion set contains every path node, so the breadth-first
collection starts from an excluded node and returns no subgraph at all. -/
theorem refine_one_none (g : Graph) (path : List Nat) (refine_front : Bool) :
    refine_one_endpoint_subgraph g path refine_front = none := by
  unfold refine_one_endpoint_subgraph
  split
  · rfl
  · rename_i hlen
    have hlen6 : 6 ≤ path.length := Nat.le_of_not_lt hlen
    have hidx : (if refine_front then 4 else path.length - 5) < path.length := by
      split <;> omega
    have htrim : path.getD (if refine_front then 4 else path.length - 5) 0 ∈ path := by
      rw [List.getD_eq_getElem path 0 hidx]
      exact List.getElem_mem hidx
    have hmem : path.getD (if refine_front then 4 else path.length - 5) 0 ∈
        path.foldl NSet.set [] := (nset_foldl_mem path [] _).mpr (Or.inl htrim)
    simp only [get_subgraph_nodes_excluding_path, if_pos hmem]
    rfl

/-- The composed refinement is the identity. -/
theorem refine_noop (g : Graph) (p : List Nat) :
    refine_path_endpoints_subgraph g p = p := by
  unfold refine_path_endpoints_subgraph
  split
  · rfl
  · simp only [refine_one_none]

theorem parChunksGo_subset (k : Nat) :
    ∀ (fuel : Nat) (l c : List Nat), c ∈ parChunksGo k fuel l → ∀ x ∈ c, x ∈ l := by
  intro fuel
  induction fuel with
  | zero =>
    intro l c hc x hx
    cases l with
    | nil => cases hc
    | cons a as =>
      have : c = a :: as := by simpa [parChunksGo] using hc
      exact this ▸ hx
  | succ fuel ih =>
    intro l c hc x hx
    cases l with
    | nil => cases hc
    | cons a as =>
      simp only [parChunksGo] at hc
      rcases List.mem_cons.mp hc with rfl | hc'
      · rcases List.mem_cons.mp hx with rfl | hx'
        · exact List.mem_cons_self _ _
        · exact List.mem_cons_of_mem _ (List.take_subset _ _ hx')
      · exact List.mem_cons_of_mem _ (List.drop_subset _ _ (ih (as.drop (k - 1)) c hc' x hx))

theorem par_chunks_subset {k : Nat} {l c : List Nat} (hc : c ∈ par_chunks k l) :
    ∀ x ∈ c, x ∈ l :=
  parChunksGo_subset k l.length l c hc

/-- Every selected start candidate is a node of the graph. -/
theorem heuristic_start_subset (g : Graph) :
    ∀ x ∈ heuristic_start_nodes g, x ∈ g.nodes := by
  intro x hx
  unfold heuristic_start_nodes at hx
  dsimp only at hx
  split at hx
  · repeat' split at hx
    all_goals
      repeat'
        first
          | exact (List.mem_filter.mp hx).1
          | (rcases List.mem_append.mp hx with hx | hx)
          | (replace hx := List.take_subset _ _ hx)
          | (replace hx := List.mem_mergeSort.mp hx)
  · exact hx

/-- Spec of the iterative-deepening loop: frame on path/visited, and the best
cells stay valid. -/
theorem deepeningLoop_spec (g : Graph) (faces : List (List Nat)) (S : List Nat)
    (hS : ∀ a b, b ∈ g.get_neighbors a → b ∈ S) :
    ∀ (dls : List Nat) (st : SState), GoodPath g st → GoodBest g st →
      (∀ x ∈ st.path, x ∈ S) → (∀ x ∈ st.bestPath, x ∈ S) →
      (deepeningLoop g faces dls st).path = st.path ∧
      (deepeningLoop g faces dls st).visited = st.visited ∧
      GoodBest g (deepeningLoop g faces dls st) ∧
      (∀ x ∈ (deepeningLoop g faces dls st).bestPath, x ∈ S) := by
  intro dls
  induction dls with
  | nil => intro st h1 h2 h3 h4; exact ⟨rfl, rfl, h2, h4⟩
  | cons dl rest ih =>
    intro st h1 h2 h3 h4
    obtain ⟨c1, c2, c3, -, c5⟩ := bnbGo_spec g faces S hS (dl - 0) 0 st h1 h2 h3 h4
    have hGP' : GoodPath g (bnb_search_local g faces st 0 dl) := by
      unfold bnb_search_local
      refine ⟨?_, ?_, ?_, ?_⟩
      · rw [c1]; exact h1.1
      · rw [c1]; exact h1.2.1
      · rw [c1]; exact h1.2.2.1
      · intro y hy
        rw [c2]
        exact h1.2.2.2 y (c1 ▸ hy)
    have hPS' : ∀ x ∈ (bnb_search_local g faces st 0 dl).path, x ∈ S := by
      intro y hy
      unfold bnb_search_local at hy
      exact h3 y (c1 ▸ hy)
    simp only [deepeningLoop]
    split
    · have h := ih _ hGP' c3 hPS' c5
      exact ⟨h.1.trans c1, h.2.1.trans c2, h.2.2.1, h.2.2.2⟩
    · split
      · exact ⟨c1, c2, c3, c5⟩
      · have h := ih _ hGP' c3 hPS' c5
        exact ⟨h.1.trans c1, h.2.1.trans c2, h.2.2.1, h.2.2.2⟩

/-- Validity of one start candidate's search step: the local best cells hold
a valid simple path whose length matches the length cell. -/
theorem heuristicStep_valid (g : Graph) (faces : List (List Nat)) (S : List Nat)
    (hS : ∀ a b, b ∈ g.get_neighbors a → b ∈ S)
    (acc : Nat × List Nat) (start : Nat) (hstS : start ∈ S)
    (h1 : acc.1 = acc.2.length) (h2 : acc.2.Nodup) (h3 : acc.2.Chain' g.edge)
    (h4 : ∀ x ∈ acc.2, x ∈ S) :
    (heuristicStep g faces acc start).1 = (heuristicStep g faces acc start).2.length ∧
    (heuristicStep g faces acc start).2.Nodup ∧
    (heuristicStep g faces acc start).2.Chain' g.edge ∧
    (∀ x ∈ (heuristicStep g faces acc start).2, x ∈ S) := by
  have hGP : GoodPath g
      ({ path := [start], visited := [start], bestLen := acc.1, bestPath := acc.2 } : SState) :=
    ⟨by simp, List.nodup_singleton _, List.chain'_singleton _, by simp⟩
  have hGB : GoodBest g
      ({ path := [start], visited := [start], bestLen := acc.1, bestPath := acc.2 } : SState) :=
    ⟨h2, h3, h1⟩
  have hPS : ∀ x ∈ ([start] : List Nat), x ∈ S := by
    intro x hx
    rw [List.mem_singleton.mp hx]
    exact hstS
  unfold heuristicStep
  dsimp only
  by_cases hbig : 500 < g.node_count
  · rw [if_pos hbig]
    obtain ⟨-, -, hgb', hbs'⟩ := deepeningLoop_spec g faces S hS
      [80, 175, 360, 2400, 5000, 7500]
      { path := [start], visited := [start], bestLen := acc.1, bestPath := acc.2 }
      hGP hGB hPS h4
    exact ⟨hgb'.2.2, hgb'.1, hgb'.2.1, hbs'⟩
  · rw [if_neg hbig]
    obtain ⟨-, -, hgb', -, hbs'⟩ := bnbGo_spec g faces S hS (7500 - 0) 0
      { path := [start], visited := [start], bestLen := acc.1, bestPath := acc.2 }
      hGP hGB hPS h4
    exact ⟨hgb'.2.2, hgb'.1, hgb'.2.1, hbs'⟩

/-- Validity invariant of one chunk worker. -/
theorem heuristicChunkFold_valid (g : Graph) (faces : List (List Nat)) (S : List Nat)
    (hS : ∀ a b, b ∈ g.get_neighbors a → b ∈ S) :
    ∀ (chunk : List Nat), (∀ x ∈ chunk, x ∈ S) →
    ∀ (acc : Nat × List Nat), acc.1 = acc.2.length → acc.2.Nodup →
      acc.2.Chain' g.edge → (∀ x ∈ acc.2, x ∈ S) →
      (chunk.foldl (heuristicStep g faces) acc).1 =
        ((chunk.foldl (heuristicStep g faces) acc).2).length ∧
      ((chunk.foldl (heuristicStep g faces) acc).2).Nodup ∧
      ((chunk.foldl (heuristicStep g faces) acc).2).Chain' g.edge ∧
      (∀ x ∈ (chunk.foldl (heuristicStep g faces) acc).2, x ∈ S) := by
  intro chunk
  induction chunk with
  | nil =>
    intro _ acc h1 h2 h3 h4
    exact ⟨h1, h2, h3, h4⟩
  | cons start rest ih =>
    intro hchunk acc h1 h2 h3 h4
    simp only [List.foldl_cons]
    have hstS : start ∈ S := hchunk start (List.mem_cons_self start rest)
    have hrest : ∀ x ∈ rest, x ∈ S := fun x hx => hchunk x (List.mem_cons_of_mem start hx)
    obtain ⟨k1, k2, k3, k4⟩ := heuristicStep_valid g faces S hS acc start hstS h1 h2 h3 h4
    exact ih hrest (heuristicStep g faces acc start) k1 k2 k3 k4

/-- Validity of a whole chunk worker's result. -/
theorem heuristicChunk_valid (g : Graph) (faces : List (List Nat)) (S : List Nat)
    (hS : ∀ a b, b ∈ g.get_neighbors a → b ∈ S)
    (chunk : List Nat) (hchunk : ∀ x ∈ chunk, x ∈ S) :
    (heuristicChunk g faces chunk).1 = (heuristicChunk g faces chunk).2.length ∧
    (heuristicChunk g faces chunk).2.Nodup ∧
    (heuristicChunk g faces chunk).2.Chain' g.edge ∧
    (∀ x ∈ (heuristicChunk g faces chunk).2, x ∈ S) :=
  heuristicChunkFold_valid g faces S hS chunk hchunk (0, []) rfl
    List.nodup_nil List.chain'_nil (by simp)

/-- Validity invariant of the cross-chunk best fold. -/
theorem globalFold_valid (g : Graph) (S : List Nat) :
    ∀ (rs : List (Nat × List Nat)),
      (∀ r ∈ rs, r.1 = r.2.length ∧ r.2.Nodup ∧ r.2.Chain' g.edge ∧ ∀ x ∈ r.2, x ∈ S) →
      ∀ (acc : Nat × List Nat),
        acc.1 = acc.2.length → acc.2.Nodup → acc.2.Chain' g.edge → (∀ x ∈ acc.2, x ∈ S) →
        (rs.foldl (fun (global : Nat × List Nat) r => if global.1 < r.1 then r else global)
          acc).1 = ((rs.foldl
            (fun (global : Nat × List Nat) r => if global.1 < r.1 then r else global)
          acc).2).length ∧
        ((rs.foldl (fun (global : Nat × List Nat) r => if global.1 < r.1 then r else global)
          acc).2).Nodup ∧
        ((rs.foldl (fun (global : Nat × List Nat) r => if global.1 < r.1 then r else global)
          acc).2).Chain' g.edge ∧
        (∀ x ∈ (rs.foldl
            (fun (global : Nat × List Nat) r => if global.1 < r.1 then r else global)
          acc).2, x ∈ S) := by
  intro rs
  induction rs with
  | nil =>
    intro _ acc h1 h2 h3 h4
    exact ⟨h1, h2, h3, h4⟩
  | cons r rest ih =>
    intro hrs acc h1 h2 h3 h4
    simp only [List.foldl_cons]
    have hr := hrs r (List.mem_cons_self r rest)
    have hrest : ∀ p ∈ rest, p.1 = p.2.length ∧ p.2.Nodup ∧ p.2.Chain' g.edge ∧
        ∀ x ∈ p.2, x ∈ S := fun p hp => hrs p (List.mem_cons_of_mem r hp)
    split
    · exact ih hrest r hr.1 hr.2.1 hr.2.2.1 hr.2.2.2
    · exact ih hrest acc h1 h2 h3 h4

theorem heuristicGlobal_valid (g : Graph) (faces : List (List Nat)) (tc : Nat)
    (S : List Nat) (hS : ∀ a b, b ∈ g.get_neighbors a → b ∈ S)
    (hnodesS : ∀ x ∈ g.nodes, x ∈ S) :
    (heuristicGlobal g faces tc).1 = (heuristicGlobal g faces tc).2.length ∧
    (heuristicGlobal g faces tc).2.Nodup ∧
    (heuristicGlobal g faces tc).2.Chain' g.edge ∧
    (∀ x ∈ (heuristicGlobal g faces tc).2, x ∈ S) := by
  unfold heuristicGlobal
  dsimp only
  apply globalFold_valid g S _ _ (0, []) rfl List.nodup_nil List.chain'_nil (by simp)
  intro r hr
  rcases List.mem_map.mp hr with ⟨chunk, hchunk, rfl⟩
  exact heuristicChunk_valid g faces S hS chunk
    (fun x hx => hnodesS x (heuristic_start_subset g x (par_chunks_subset hchunk x hx)))

theorem find_heuristic_eq_global (g : Graph) (faces : List (List Nat)) (tc : Nat) :
    find_heuristic_path g faces tc = (heuristicGlobal g faces tc).2 := by
  have hP := heuristicGlobal_valid g faces tc (g.nodes ++ g.allNeighborValues)
    (fun a b hb => List.mem_append.mpr (Or.inr (Graph.get_neighbors_subset_values hb)))
    (fun x hx => List.mem_append.mpr (Or.inl hx))
  unfold find_heuristic_path
  dsimp only
  have e1 : (if (heuristicGlobal g faces tc).1 * 100 / g.node_count < 85 ∧
      (heuristicGlobal g faces tc).2 ≠ [] then
        refine_path_endpoints_subgraph g (heuristicGlobal g faces tc).2
      else (heuristicGlobal g faces tc).2) = (heuristicGlobal g faces tc).2 := by
    rw [refine_noop]
    exact ite_self _
  rw [e1]
  by_cases hn : g.node_count = 0
  · have hadj : g.adjacency = [] := by
      unfold Graph.node_count at hn
      exact List.length_eq_zero.mp hn
    have hnil : (heuristicGlobal g faces tc).2 = [] := by
      refine List.eq_nil_iff_forall_not_mem.mpr ?_
      intro x hx
      have := hP.2.2.2 x hx
      simp [Graph.nodes, Graph.allNeighborValues, hadj] at this
    split
    · rw [if_neg]
      rw [hnil]
      simp
    · rfl
  · have hlt := Nat.lt_mul_div_succ ((heuristicGlobal g faces tc).2.length * 100)
      (Nat.pos_of_ne_zero hn)
    rw [if_neg]
    intro hcond
    rw [hP.1] at hcond
    have h2 := hcond.2
    rw [Nat.mul_comm] at h2
    omega

/-- Validity of the full exact solver's output. -/
theorem exact_longest_valid (g : Graph) :
    (exact_longest_path_standard g).Nodup ∧
    (exact_longest_path_standard g).Chain' g.edge := by
  rw [exact_longest_eq]
  split
  · have h := exactFold_valid g g.nodes (fun x hx => hx) (0, []) rfl
      List.nodup_nil List.chain'_nil
    exact ⟨h.2.1, h.2.2⟩
  · have h := exactFold_valid g
      (g.nodes.filter (fun node => (g.get_neighbors node).length ≤ 2))
      (fun x hx => (List.mem_filter.mp hx).1) (0, []) rfl
      List.nodup_nil List.chain'_nil
    exact ⟨h.2.1, h.2.2⟩

/-- Validity of the full heuristic solver's output. -/
theorem find_heuristic_valid (g : Graph) (faces : List (List Nat)) (tc : Nat) :
    (find_heuristic_path g faces tc).Nodup ∧
    (find_heuristic_path g faces tc).Chain' g.edge := by
  rw [find_heuristic_eq_global]
  have h := heuristicGlobal_valid g faces tc (g.nodes ++ g.allNeighborValues)
    (fun a b hb => List.mem_append.mpr (Or.inr (Graph.get_neighbors_subset_values hb)))
    (fun x hx => List.mem_append.mpr (Or.inl hx))
  exact ⟨h.2.1, h.2.2.1⟩

/-- On a well-formed graph every node of the heuristic solver's output is a
node of the graph. -/
theorem find_heuristic_subset (g : Graph) (hw : g.Wellformed)
    (faces : List (List Nat)) (tc : Nat) :
    ∀ x ∈ find_heuristic_path g faces tc, x ∈ g.nodes := by
  rw [find_heuristic_eq_global]
  have h := heuristicGlobal_valid g faces tc g.nodes
    (fun a b hb => Graph.get_neighbors_subset_nodes hw hb)
    (fun x hx => hx)
  exact h.2.2.2

/-! ## Claim theorems -/

/-- C1: for every component graph, the path returned by the solve pipeline
(`find_longest_path`, whether it took the exact or the heuristic branch,
including any endpoint refinement) is a valid simple path: its node ids are
pairwise distinct and every consecutive pair of nodes is an edge of the
graph. -/
theorem C1_solve_pipeline_returns_simple_path :
    ∀ (g : Graph) (faces : List (List Nat)) (threadCount : Nat),
      IsSimplePath g (find_longest_path g faces threadCount) := by
  intro g faces tc
  unfold find_longest_path
  split
  · exact exact_longest_valid g
  · exact find_heuristic_valid g faces tc

/-- C9: on return from the recursive search procedures (`bnb_search_local`
and `backtrack_exact_standard`), the working path and the visited set are
exactly their entry values — every push/mark is undone by a matching
pop/unmark, so no search state leaks between sibling branches; only the
best-length/best-path cells may change. -/
theorem C9_search_state_restored :
    ∀ (g : Graph) (faces : List (List Nat)) (st : SState) (depth depth_limit fuel : Nat),
      ((bnb_search_local g faces st depth depth_limit).path = st.path ∧
       (bnb_search_local g faces st depth depth_limit).visited = st.visited) ∧
      ((backtrack_exact_standard g fuel st).path = st.path ∧
       (backtrack_exact_standard g fuel st).visited = st.visited) := by
  intro g faces st depth depth_limit fuel
  exact ⟨bnbGo_frame g faces (depth_limit - depth) depth st, backtrack_frame g fuel st⟩

/-- C10: the validator accepts degenerate paths — `verify_path` returns true
for the empty path, and for every single-node path whether or not that node
exists in the graph, since both the duplicate check and the consecutive-edge
check are vacuous there. -/
theorem C10_validator_accepts_degenerate :
    (∀ g : Graph, verify_path g [] = true) ∧
    (∀ (g : Graph) (x : Nat), verify_path g [x] = true) := by
  constructor
  · intro g
    rfl
  · intro g x
    unfold verify_path verifyNoDup verifyEdges
    simp [verifyNoDup]

/-- C8: every `NodeBitset` operation (`set`, `clear`, `contains`) on an id
at or above `MAX_NODE_COUNT` takes the fatal contract-violation branch
(modelled as `none`), and on any id below the bound none of them can reach
that branch. -/
theorem C8_bitset_contract :
    ∀ (b : NodeBitset) (id : Nat),
      (MAX_NODE_COUNT ≤ id →
        b.set id = none ∧ b.clear id = none ∧ b.containsBit id = none) ∧
      (id < MAX_NODE_COUNT →
        (b.set id).isSome ∧ (b.clear id).isSome ∧ (b.containsBit id).isSome) := by
  intro b id
  constructor
  · intro h
    refine ⟨?_, ?_, ?_⟩
    · unfold NodeBitset.set
      rw [if_pos h]
    · unfold NodeBitset.clear
      rw [if_pos h]
    · unfold NodeBitset.containsBit
      rw [if_pos h]
  · intro h
    refine ⟨?_, ?_, ?_⟩
    · unfold NodeBitset.set
      rw [if_neg (Nat.not_le.mpr h)]
      rfl
    · unfold NodeBitset.clear
      rw [if_neg (Nat.not_le.mpr h)]
      rfl
    · unfold NodeBitset.containsBit
      rw [if_neg (Nat.not_le.mpr h)]
      rfl

/-- Witness for C8 at the concrete boundary: id 2048 is fatal for all three
operations, id 5 is fatal for none. -/
theorem C8_bitset_contract_witness :
    (NodeBitset.new.set 2048 = none ∧ NodeBitset.new.clear 2048 = none ∧
      NodeBitset.new.containsBit 2048 = none) ∧
    ((NodeBitset.new.set 5).isSome ∧ (NodeBitset.new.clear 5).isSome ∧
      (NodeBitset.new.containsBit 5).isSome) :=
  ⟨(C8_bitset_contract NodeBitset.new 2048).1 (by decide),
   (C8_bitset_contract NodeBitset.new 5).2 (by decide)⟩

/-- C3 counterexample: in the 6-chain with a face list disjoint from the
graph, start the search at node 0 with best length 5.  The claim's prune
condition `current_length + floor(face_bound * 0.8) ≤ best` holds at the root
(1 + 4 = 5 ≤ 5), so per the claim the branch is pruned and the best stays 5;
the code's strict `<` does not prune, the chain is explored and the best
grows to 6. -/
theorem C3_prune_counterexample :
    (1 + enhanced_face_heuristic chainG [0] [0] chainFaces * 8 / 10 ≤ 5) ∧
    (bnb_search_local chainG chainFaces
      { path := [0], visited := [0], bestLen := 5, bestPath := [] } 0 100).bestLen = 6 := by
  constructor
  · decide
  · decide

/-- C3 amended: with a non-empty face list, the branch-and-bound search
prunes exactly when `current_length + face_bound * 8 / 10` is strictly below
the best length so far (the face bound itself is as the claim describes);
when the prune test holds the search returns its entry state unchanged. -/
theorem C3_prune_strict :
    ∀ (g : Graph) (faces : List (List Nat)) (st : SState) (depth depth_limit : Nat),
      faces ≠ [] →
      (bnb_prunes g faces st.path st.visited st.bestLen = true ↔
        st.path.length +
          enhanced_face_heuristic g st.path st.visited faces * 8 / 10 < st.bestLen) ∧
      (depth < depth_limit →
        bnb_prunes g faces st.path st.visited st.bestLen = true →
        bnb_search_local g faces st depth depth_limit = st) := by
  intro g faces st depth depth_limit hfaces
  constructor
  · unfold bnb_prunes
    rw [Bool.and_eq_true, decide_eq_true_eq]
    constructor
    · exact fun h => h.2
    · intro h
      refine ⟨?_, h⟩
      simp [hfaces]
  · intro hdl hprune
    unfold bnb_search_local
    have hsucc : depth_limit - depth = (depth_limit - depth - 1) + 1 := by omega
    rw [hsucc, bnbGo_succ, if_pos hprune]

/-- Witness for C3 at a concrete pruned state: best length 7 beats the
bound strictly, the prune test fires and the search returns unchanged. -/
theorem C3_prune_strict_witness :
    chainFaces ≠ [] ∧
    bnb_prunes chainG chainFaces [0] [0] 7 = true ∧
    bnb_search_local chainG chainFaces
      { path := [0], visited := [0], bestLen := 7, bestPath := [] } 0 100 =
      { path := [0], visited := [0], bestLen := 7, bestPath := [] } := by
  have h := C3_prune_strict chainG chainFaces
    { path := [0], visited := [0], bestLen := 7, bestPath := [] } 0 100 (by decide)
  exact ⟨by decide, by decide, h.2 (by decide) (by decide)⟩

theorem faceWalk_extends (g : Graph) (start : Nat) :
    ∀ (fuel : Nat) (face : List Nat) (cur nxt : Nat) (ins : List (Nat × Nat)),
      ∃ more, (faceWalk g start fuel face cur nxt ins).1 = ins ++ more := by
  intro fuel
  induction fuel with
  | zero => intro face cur nxt ins; exact ⟨[], by simp [faceWalk]⟩
  | succ fuel ih =>
    intro face cur nxt ins
    unfold faceWalk
    dsimp only
    split
    · exact ⟨[(cur, nxt)], rfl⟩
    · split
      · exact ⟨[(cur, nxt)], rfl⟩
      · split
        · exact ⟨[(cur, nxt)], rfl⟩
        · rename_i neighbor _
          split
          · exact ⟨[(cur, nxt)], rfl⟩
          · obtain ⟨more, hmore⟩ := ih (face ++ [nxt]) nxt neighbor (ins ++ [(cur, nxt)])
            exact ⟨[(cur, nxt)] ++ more, by rw [hmore, List.append_assoc]⟩

theorem faceWalk_mem (g : Graph) (start : Nat) (fuel : Nat) (face : List Nat)
    (cur nxt : Nat) (ins : List (Nat × Nat)) :
    (cur, nxt) ∈ (faceWalk g start (fuel + 1) face cur nxt ins).1 := by
  unfold faceWalk
  dsimp only
  split
  · simp
  · split
    · simp
    · split
      · simp
      · rename_i neighbor _
        split
        · simp
        · obtain ⟨more, hmore⟩ := faceWalk_extends g start fuel (face ++ [nxt]) nxt neighbor
            (ins ++ [(cur, nxt)])
          rw [hmore]
          simp

theorem find_face_start_mem (g : Graph) (s f : Nat) :
    (s, f) ∈ (find_face_clockwise g s f).1 := by
  unfold find_face_clockwise
  have hm := faceWalk_mem g s (MAX_FACE_SIZE + 2) [s] s f []
  cases h : faceWalk g s (MAX_FACE_SIZE + 3) [s] s f [] with
  | mk ins kept =>
    have : (s, f) ∈ ins := by
      have : MAX_FACE_SIZE + 3 = (MAX_FACE_SIZE + 2) + 1 := rfl
      rw [this, h] at hm
      exact hm
    cases kept with
    | none => simpa [h] using this
    | some face =>
      dsimp only
      split <;> simpa using this

theorem buildFacesGo_spec (g : Graph) :
    ∀ (es : List (Nat × Nat)) (atts : List FaceAttempt) (vis : List (Nat × Nat)),
      (∀ x ∈ vis, ∃ a ∈ atts, x ∈ a.inserted) →
      (∀ a ∈ atts, a.start ∈ a.inserted) →
      (∀ a ∈ atts, ∀ x ∈ a.inserted, x ∈ vis) →
      List.Pairwise (fun a b => b.start ∉ a.inserted) atts →
      (∀ e ∈ es, ∃ a ∈ (buildFacesGo g es atts vis).1, e ∈ a.inserted) ∧
      (∀ a ∈ (buildFacesGo g es atts vis).1, a.start ∈ a.inserted) ∧
      List.Pairwise (fun a b => b.start ∉ a.inserted) (buildFacesGo g es atts vis).1 ∧
      (∀ a ∈ atts, a ∈ (buildFacesGo g es atts vis).1) := by
  intro es
  induction es with
  | nil =>
    intro atts vis h1 h2 h3 h4
    exact ⟨by simp, h2, h4, fun a ha => ha⟩
  | cons e es ih =>
    intro atts vis h1 h2 h3 h4
    simp only [buildFacesGo]
    by_cases hvis : e ∈ vis
    · rw [if_pos hvis]
      obtain ⟨hcov, hstart, hpair, hmono⟩ := ih atts vis h1 h2 h3 h4
      refine ⟨?_, hstart, hpair, hmono⟩
      intro e' he'
      rcases List.mem_cons.mp he' with rfl | he''
      · obtain ⟨a, ha, hea⟩ := h1 e' hvis
        exact ⟨a, hmono a ha, hea⟩
      · exact hcov e' he''
    · rw [if_neg hvis]
      have hstartmem : e ∈ (find_face_clockwise g e.1 e.2).1 := by
        have := find_face_start_mem g e.1 e.2
        exact this
      have h1' : ∀ x ∈ vis ++ (find_face_clockwise g e.1 e.2).1,
          ∃ a ∈ atts ++ [⟨e, (find_face_clockwise g e.1 e.2).1,
            (find_face_clockwise g e.1 e.2).2⟩], x ∈ a.inserted := by
        intro x hx
        rcases List.mem_append.mp hx with hx' | hx'
        · obtain ⟨a, ha, hxa⟩ := h1 x hx'
          exact ⟨a, List.mem_append.mpr (Or.inl ha), hxa⟩
        · exact ⟨_, List.mem_append.mpr (Or.inr (List.mem_singleton.mpr rfl)), hx'⟩
      have h2' : ∀ a ∈ atts ++ [(⟨e, (find_face_clockwise g e.1 e.2).1,
          (find_face_clockwise g e.1 e.2).2⟩ : FaceAttempt)], a.start ∈ a.inserted := by
        intro a ha
        rcases List.mem_append.mp ha with ha' | ha'
        · exact h2 a ha'
        · rw [List.mem_singleton.mp ha']
          exact hstartmem
      have h3' : ∀ a ∈ atts ++ [(⟨e, (find_face_clockwise g e.1 e.2).1,
          (find_face_clockwise g e.1 e.2).2⟩ : FaceAttempt)],
          ∀ x ∈ a.inserted, x ∈ vis ++ (find_face_clockwise g e.1 e.2).1 := by
        intro a ha x hx
        rcases List.mem_append.mp ha with ha' | ha'
        · exact List.mem_append.mpr (Or.inl (h3 a ha' x hx))
        · rw [List.mem_singleton.mp ha'] at hx
          exact List.mem_append.mpr (Or.inr hx)
      have h4' : List.Pairwise (fun a b => b.start ∉ a.inserted)
          (atts ++ [(⟨e, (find_face_clockwise g e.1 e.2).1,
            (find_face_clockwise g e.1 e.2).2⟩ : FaceAttempt)]) := by
        rw [List.pairwise_append]
        refine ⟨h4, List.pairwise_singleton _ _, ?_⟩
        intro a ha b hb
        rw [List.mem_singleton.mp hb]
        intro hcontra
        exact hvis (h3 a ha e hcontra)
      obtain ⟨hcov, hstart, hpair, hmono⟩ := ih _ _ h1' h2' h3' h4'
      refine ⟨?_, hstart, hpair, ?_⟩
      · intro e' he'
        rcases List.mem_cons.mp he' with rfl | he''
        · exact ⟨_, hmono _ (List.mem_append.mpr (Or.inr (List.mem_singleton.mpr rfl))),
            hstartmem⟩
        · exact hcov e' he''
      · intro a ha
        exact hmono a (List.mem_append.mpr (Or.inl ha))

/-- C4 amended: during face detection every directed half-edge of the graph
is traversed by at least one face-traversal attempt (no omissions), each
attempt's own starting half-edge is traversed by it, and no attempt ever
starts from a half-edge traversed by an earlier attempt; re-traversal of an
earlier attempt's half-edges by a later walk, however, does occur (see the
counterexample). -/
theorem C4_half_edge_attempts :
    ∀ (g : Graph) (e : Nat × Nat), e ∈ g.halfEdges →
      (∃ a ∈ (build_faces_attempts g).1, e ∈ a.inserted) ∧
      (∀ a ∈ (build_faces_attempts g).1, a.start ∈ a.inserted) ∧
      List.Pairwise (fun a b => b.start ∉ a.inserted) (build_faces_attempts g).1 := by
  intro g e he
  have h := buildFacesGo_spec g g.halfEdges [] [] (by simp) (by simp) (by simp)
    List.Pairwise.nil
  exact ⟨h.1 e he, h.2.1, h.2.2.1⟩

/-- Witness for C4 on the 30-cycle: the half-edge (0, 1) is traversed by
some attempt, every attempt traverses its own start, and no attempt starts
inside an earlier attempt's traversal. -/
theorem C4_half_edge_attempts_witness :
    (0, 1) ∈ cycle30.halfEdges ∧
    (∃ a ∈ (build_faces_attempts cycle30).1, (0, 1) ∈ a.inserted) := by
  have h := C4_half_edge_attempts cycle30 (0, 1) (by decide)
  exact ⟨by decide, h.1⟩

/-- C4 counterexample: on the 30-node cycle the boundary walks are longer
than `MAX_FACE_SIZE`, get cut off, and later attempts re-traverse earlier
half-edges: the half-edge (0, 29) is traversed by three distinct attempts,
refuting "every half-edge is traversed by exactly one attempt". -/
theorem C4_half_edge_counterexample :
    (0, 29) ∈ cycle30.halfEdges ∧
    ((build_faces_attempts cycle30).1.filter
      (fun a => decide ((0, 29) ∈ a.inserted))).length = 3 := by
  constructor
  · decide
  · decide

set_option maxRecDepth 100000 in
set_option maxHeartbeats 2000000 in
/-- C5 counterexample: on `twoK4` — a 9-node component both solvers handle
(well within the brute-force threshold) — the exact solver searches only from
the two degree-1 pendants and returns a 5-node path, while the heuristic
solver, free to start anywhere, finds the 7-node path between two degree-3
nodes. -/
theorem C5_exact_vs_heuristic_counterexample :
    twoK4.node_count ≤ MAX_SIZE_BRUTE_FORCE ∧
    (exact_longest_path_standard twoK4).length <
      (find_heuristic_path twoK4 (build_faces twoK4) 1).length := by
  constructor
  · decide
  · decide

/-- C5 amended: the Exact Solver's result is at least as long as the
Heuristic Solver's on the same input whenever the exact solver's start set is
all nodes, i.e. when fewer than two nodes have degree ≤ 2 (with restricted
degree ≤ 2 starts it can miss optima whose endpoints have higher degree, as
the counterexample shows). -/
theorem C5_exact_ge_heuristic_all_starts :
    ∀ (g : Graph) (faces : List (List Nat)) (tc : Nat),
      g.Wellformed →
      (g.nodes.filter (fun node => (g.get_neighbors node).length ≤ 2)).length < 2 →
      (find_heuristic_path g faces tc).length ≤ (exact_longest_path_standard g).length := by
  intro g faces tc hw hfew
  have hval := find_heuristic_valid g faces tc
  exact exact_ge_path g hfew _ hval.1 hval.2 (find_heuristic_subset g hw faces tc)

/-- Witness for C5 on the complete graph K4 (no degree ≤ 2 nodes): the
heuristic result is no longer than the exact result. -/
theorem C5_exact_ge_heuristic_witness :
    k4G.Wellformed ∧
    (k4G.nodes.filter (fun node => (k4G.get_neighbors node).length ≤ 2)).length < 2 ∧
    (find_heuristic_path k4G (build_faces k4G) 1).length ≤
      (exact_longest_path_standard k4G).length :=
  ⟨by decide, by decide,
    C5_exact_ge_heuristic_all_starts k4G (build_faces k4G) 1 (by decide) (by decide)⟩


theorem lookup_append_left {l l' : List (Nat × List Nat)} {k : Nat}
    (h : (l.lookup k).isSome) : (l ++ l').lookup k = l.lookup k := by
  induction l with
  | nil => simp [List.lookup] at h
  | cons p rest ih =>
    cases p with
    | mk a b =>
      rw [List.cons_append, List.lookup_cons, List.lookup_cons]
      by_cases hk : k = a
      · subst hk
        simp
      · have hba : (k == a) = false := by simp [hk]
        rw [hba]
        rw [List.lookup_cons, hba] at h
        exact ih h

theorem setValue_capOk {g : Graph} {k : Nat} {l : List Nat}
    (h : CapOk g) (hl : l.length ≤ 8) : CapOk (g.setValue k l) := by
  constructor
  · show (g.adjacency.map _).length ≤ MAX_NODE_COUNT
    rw [List.length_map]
    exact h.1
  · intro p hp
    unfold Graph.setValue at hp
    rcases List.mem_map.mp hp with ⟨q, hq, hqp⟩
    by_cases hqk : q.1 = k
    · rw [if_pos hqk] at hqp
      rw [← hqp]
      exact hl
    · rw [if_neg hqk] at hqp
      exact hqp ▸ h.2 q hq

theorem add_node_capOk (g : Graph) (id : Nat) (h : CapOk g) :
    CapOk (g.add_node id).2 := by
  unfold Graph.add_node
  split
  · exact setValue_capOk h (by simp)
  · split
    · rename_i hlen
      constructor
      · simpa using hlen
      · intro p hp
        rcases List.mem_append.mp hp with hp' | hp'
        · exact h.2 p hp'
        · rw [List.mem_singleton.mp hp']
          simp
    · exact h

theorem pushNeighbor_capOk (g : Graph) (a b : Nat) (h : CapOk g) :
    CapOk (g.pushNeighbor a b).2 := by
  unfold Graph.pushNeighbor
  dsimp only
  split
  · exact h
  · split
    · rename_i hlt
      apply setValue_capOk h
      simp only [List.length_append, List.length_singleton]
      omega
    · exact h

theorem pushNeighbor_full_err (g : Graph) (a b : Nat)
    (hb : b ∉ g.get_neighbors a) (hlen : (g.get_neighbors a).length = 8) :
    g.pushNeighbor a b = (false, g) := by
  unfold Graph.pushNeighbor
  dsimp only
  rw [if_neg hb, if_neg (by omega)]

theorem add_edge_capOk (g : Graph) (a b : Nat) (h : CapOk g) :
    CapOk (g.add_edge a b).2 := by
  unfold Graph.add_edge
  dsimp only
  set s1 := if g.containsKey a then (true, g) else g.add_node a with hs1
  have h1 : CapOk s1.2 := by
    rw [hs1]
    split
    · exact h
    · exact add_node_capOk g a h
  split
  · exact h1
  · set s2 := if s1.2.containsKey b then (true, s1.2) else s1.2.add_node b with hs2
    have h2 : CapOk s2.2 := by
      rw [hs2]
      split
      · exact h1
      · exact add_node_capOk _ b h1
    split
    · exact h2
    · have h3 := pushNeighbor_capOk s2.2 a b h2
      split
      · exact h3
      · exact pushNeighbor_capOk _ b a h3

theorem capOk_neighbors {g : Graph} (h : CapOk g) (u : Nat) :
    (g.get_neighbors u).length ≤ 8 := by
  unfold Graph.get_neighbors
  cases hl : g.adjacency.lookup u with
  | none => simp
  | some v =>
    simpa using h.2 (u, v) (lookupPairMem hl)

theorem build_capOk (al : List (String × List String)) :
    CapOk (build_graph_from_adjacency al).1 := by
  unfold build_graph_from_adjacency
  dsimp only
  have hstep : ∀ (rows : List (String × List String)) (g : Graph), CapOk g →
      CapOk (rows.foldl
        (fun (g : Graph) p =>
          let node_id := ((buildNameTable al).1.lookup p.1).getD 0
          let g := (g.add_node node_id).2
          p.2.foldl
            (fun (g : Graph) nbr =>
              let neighbor_id := ((buildNameTable al).1.lookup nbr).getD 0
              (g.add_edge node_id neighbor_id).2)
            g)
        g) := by
    intro rows
    induction rows with
    | nil => intro g hg; exact hg
    | cons row rest ih =>
      intro g hg
      simp only [List.foldl_cons]
      apply ih
      have hnode := add_node_capOk g (((buildNameTable al).1.lookup row.1).getD 0) hg
      have hinner : ∀ (nbrs : List String) (g' : Graph), CapOk g' →
          CapOk (nbrs.foldl
            (fun (g : Graph) nbr =>
              let neighbor_id := ((buildNameTable al).1.lookup nbr).getD 0
              (g.add_edge (((buildNameTable al).1.lookup row.1).getD 0) neighbor_id).2)
            g') := by
        intro nbrs
        induction nbrs with
        | nil => intro g' hg'; exact hg'
        | cons nb rest' ih' =>
          intro g' hg'
          simp only [List.foldl_cons]
          exact ih' _ (add_edge_capOk _ _ _ hg')
      exact hinner row.2 _ hnode
  exact hstep al Graph.new ⟨by simp [Graph.new, MAX_NODE_COUNT], by simp [Graph.new]⟩

theorem add_edge_full_err (g : Graph) (u v : Nat)
    (hu : g.containsKey u = true) (hv : v ∉ g.get_neighbors u)
    (hlen : (g.get_neighbors u).length = 8) : (g.add_edge u v).1 = false := by
  unfold Graph.add_edge
  dsimp only
  rw [if_pos hu]
  simp only [Bool.not_true, Bool.false_eq_true, if_false]
  by_cases hvk : g.containsKey v = true
  · rw [if_pos hvk]
    simp only [Bool.not_true, Bool.false_eq_true, if_false]
    rw [pushNeighbor_full_err g u v hv hlen]
    simp
  · rw [if_neg hvk]
    unfold Graph.add_node
    rw [if_neg hvk]
    by_cases hcap : g.adjacency.length < MAX_NODE_COUNT
    · rw [if_pos hcap]
      simp only [Bool.not_true, Bool.false_eq_true, if_false]
      have hpres : (⟨g.adjacency ++ [(v, [])]⟩ : Graph).get_neighbors u
          = g.get_neighbors u := by
        unfold Graph.get_neighbors
        dsimp only
        rw [lookup_append_left]
        unfold Graph.containsKey at hu
        exact hu
      rw [pushNeighbor_full_err _ u v (hpres ▸ hv) (hpres ▸ hlen)]
      simp
    · rw [if_neg hcap]
      simp

/-- C2: what survives of the capacity claim — the built graph indeed never
grows beyond the fixed capacities (at most `MAX_NODE_COUNT` nodes, at most
8 stored neighbours per node), and a full neighbour list does make
`add_edge` report an error; but `build_graph_from_adjacency` discards that
error (`let _ = graph.add_edge(...)`), there is no `CapacityExceeded`
variant anywhere in the file, and the over-capacity edge is silently
dropped (see the counterexample). -/
theorem C2_capacity_never_exceeded (al : List (String × List String))
    (g : Graph) (u v : Nat)
    (hu : g.containsKey u = true) (hv : v ∉ g.get_neighbors u)
    (hlen : (g.get_neighbors u).length = 8) :
    (build_graph_from_adjacency al).1.adjacency.length ≤ MAX_NODE_COUNT ∧
    (∀ n, ((build_graph_from_adjacency al).1.get_neighbors n).length ≤ 8) ∧
    (g.add_edge u v).1 = false := by
  have h := build_capOk al
  exact ⟨h.1, fun n => capOk_neighbors h n, add_edge_full_err g u v hu hv hlen⟩

/-- C2 witness: the capacity bounds on the nine-neighbour document, and the
error flag of the push that overflows node 0's full list. -/
theorem C2_capacity_never_exceeded_witness :
    (⟨[(0, [1, 2, 3, 4, 5, 6, 7, 8])]⟩ : Graph).containsKey 0 = true ∧
    9 ∉ (⟨[(0, [1, 2, 3, 4, 5, 6, 7, 8])]⟩ : Graph).get_neighbors 0 ∧
    ((⟨[(0, [1, 2, 3, 4, 5, 6, 7, 8])]⟩ : Graph).get_neighbors 0).length = 8 ∧
    ((build_graph_from_adjacency overAl).1.adjacency.length ≤ MAX_NODE_COUNT ∧
      (∀ n, ((build_graph_from_adjacency overAl).1.get_neighbors n).length ≤ 8) ∧
      ((⟨[(0, [1, 2, 3, 4, 5, 6, 7, 8])]⟩ : Graph).add_edge 0 9).1 = false) :=
  ⟨by decide, by decide, by decide,
    C2_capacity_never_exceeded overAl ⟨[(0, [1, 2, 3, 4, 5, 6, 7, 8])]⟩ 0 9
      (by decide) (by decide) (by decide)⟩

set_option maxRecDepth 100000 in
/-- C2 counterexample: building the nine-neighbour document raises no error
(the function has no error channel at all) and silently drops the ninth
edge: node 0 keeps eight neighbours, and the edge between 0 and 9 survives
only in the direction 9 → 0, leaving the adjacency asymmetric. -/
theorem C2_silent_drop_counterexample :
    (build_graph_from_adjacency overAl).1.get_neighbors 0 = [1, 2, 3, 4, 5, 6, 7, 8] ∧
    (build_graph_from_adjacency overAl).1.get_neighbors 9 = [0] ∧
    (build_graph_from_adjacency overAl).1.containsKey 9 = true := by
  decide

theorem annealPropose_inv (g : Graph) (P0 : List Nat) (st : RWState)
    (h : RWInv P0 st) : RWInv P0 (annealPropose g st).2 := h

theorem annealAccept_inv (P0 : List Nat) (st : RWState) (candidate : List Nat)
    (h : RWInv P0 st) : RWInv P0 (annealAccept st candidate) := by
  obtain ⟨h1, h2, h3⟩ := h
  unfold annealAccept
  dsimp only
  split
  · rw [if_pos rfl]
    split
    · rename_i hlt
      exact ⟨rfl, Nat.le_of_lt (Nat.lt_of_le_of_lt h2 hlt),
        Or.inr (Nat.lt_of_le_of_lt h2 hlt)⟩
    · exact ⟨h1, h2, h3⟩
  · split
    · split
      · rename_i hlt
        exact ⟨rfl, Nat.le_of_lt (Nat.lt_of_le_of_lt h2 hlt),
          Or.inr (Nat.lt_of_le_of_lt h2 hlt)⟩
      · exact ⟨h1, h2, h3⟩
    · exact ⟨h1, h2, h3⟩

theorem annealFuse_inv (g : Graph) (P0 : List Nat) (iteration : Nat) (st : RWState)
    (h : RWInv P0 st) : RWInv P0 (annealFuse g iteration st) := by
  obtain ⟨h1, h2, h3⟩ := h
  unfold annealFuse
  dsimp only
  split
  · split
    · split
      · rename_i hlt
        exact ⟨rfl, Nat.le_of_lt (Nat.lt_of_le_of_lt h2 hlt),
          Or.inr (Nat.lt_of_le_of_lt h2 hlt)⟩
      · exact ⟨h1, h2, h3⟩
    · exact ⟨h1, h2, h3⟩
  · exact ⟨h1, h2, h3⟩

theorem annealGo_inv (g : Graph) (P0 : List Nat) :
    ∀ (its : List Nat) (st : RWState), RWInv P0 st → RWInv P0 (annealGo g its st) := by
  intro its
  induction its with
  | nil => intro st h; exact h
  | cons iteration rest ih =>
    intro st h
    rw [annealGo]
    split
    · exact h
    · dsimp only
      split
      · exact ih _ h
      · exact ih _ (annealFuse_inv g P0 iteration _
          (annealAccept_inv P0 _ _ (annealPropose_inv g P0 _ h)))

theorem seedsGo_inv (g : Graph) (P0 : List Nat) :
    ∀ (ps : List (List Nat)) (bestPath : List Nat) (bestLength : Nat)
      (rng : Rng) (clock : Clock),
      bestLength = bestPath.length → P0.length ≤ bestLength →
      (bestPath = P0 ∨ P0.length < bestLength) →
      (seedsGo g ps bestPath bestLength rng clock).2 =
        (seedsGo g ps bestPath bestLength rng clock).1.length ∧
      P0.length ≤ (seedsGo g ps bestPath bestLength rng clock).2 ∧
      ((seedsGo g ps bestPath bestLength rng clock).1 = P0 ∨
        P0.length < (seedsGo g ps bestPath bestLength rng clock).2) := by
  intro ps
  induction ps with
  | nil =>
    intro bestPath bestLength rng clock h1 h2 h3
    exact ⟨h1, h2, h3⟩
  | cons p rest ih =>
    intro bestPath bestLength rng clock h1 h2 h3
    rw [seedsGo]
    split
    · exact ⟨h1, h2, h3⟩
    · have hr := annealGo_inv g P0 (List.range 200)
        { path := p, currentLength := p.length, bestPath := bestPath
          bestLength := bestLength, rng := rng, clock := ((clock.expired)).2 }
        ⟨h1, h2, h3⟩
      exact ih _ _ _ _ hr.1 hr.2.1 hr.2.2

/-- C6: the Endpoint Refiner returns its input unchanged (so it never
shortens it), and the Path Improver returns a path at least as long as its
input — either the input itself, unchanged, or a strictly longer path that
displaced it in the best cells. -/
theorem C6_refiner_improver_never_shorten (g : Graph) (p : List Nat)
    (rng : Rng) (clock : Clock) :
    refine_path_endpoints_subgraph g p = p ∧
    p.length ≤ (random_walk_improvements g p rng clock).length ∧
    (random_walk_improvements g p rng clock = p ∨
      p.length < (random_walk_improvements g p rng clock).length) := by
  have hseeds := seedsGo_inv g p ([p] ++ (seedLoopGo g 20 [] rng clock).1) p p.length
    (seedLoopGo g 20 [] rng clock).2.1 (seedLoopGo g 20 [] rng clock).2.2
    rfl (Nat.le_refl _) (Or.inl rfl)
  refine ⟨refine_noop g p, ?_, ?_⟩
  · show p.length ≤ (seedsGo g ([p] ++ (seedLoopGo g 20 [] rng clock).1) p p.length
      (seedLoopGo g 20 [] rng clock).2.1 (seedLoopGo g 20 [] rng clock).2.2).1.length
    exact hseeds.1 ▸ hseeds.2.1
  · show (seedsGo g ([p] ++ (seedLoopGo g 20 [] rng clock).1) p p.length
        (seedLoopGo g 20 [] rng clock).2.1 (seedLoopGo g 20 [] rng clock).2.2).1 = p ∨
      p.length < (seedsGo g ([p] ++ (seedLoopGo g 20 [] rng clock).1) p p.length
        (seedLoopGo g 20 [] rng clock).2.1 (seedLoopGo g 20 [] rng clock).2.2).1.length
    rcases hseeds.2.2 with hc | hc
    · exact Or.inl hc
    · exact Or.inr (hseeds.1 ▸ hc)

/-- The five degree buckets of the start-candidate selection partition the
node list: the bucket index `min degree 5 - 1` always lies below 5. -/
theorem filter_bucket_partition (l : List Nat) (f : Nat → Nat) (h : ∀ x ∈ l, f x < 5) :
    (l.filter (fun x => f x = 0)).length + (l.filter (fun x => f x = 1)).length +
    (l.filter (fun x => f x = 2)).length + (l.filter (fun x => f x = 3)).length +
    (l.filter (fun x => f x = 4)).length = l.length := by
  induction l with
  | nil => simp
  | cons x t ih =>
    have hx : f x < 5 := h x (List.mem_cons_self x t)
    have ht := ih (fun y hy => h y (List.mem_cons_of_mem x hy))
    have hcases : f x = 0 ∨ f x = 1 ∨ f x = 2 ∨ f x = 3 ∨ f x = 4 := by omega
    simp only [List.filter_cons]
    rcases hcases with h0 | h0 | h0 | h0 | h0 <;> simp [h0] <;> omega

/-- C7: what survives of the start-candidate claim, for graphs above the
candidate target `NUM_ENDPOINT_HEURISTIC = 254` with minimum degree 1 (on a
degree-0 node the Rust bucket index `min(degree,5)-1` underflows and
panics): every degree-1 node is selected, the selection stays inside the
graph's node list, and whenever the degree-1 bucket fits under the target
the selection has exactly 254 nodes; but the degree-1 bucket itself is
never capped, so the 254 bound of the claim can be exceeded (see the
counterexample). -/
theorem C7_candidate_selection (g : Graph)
    (hdeg : ∀ n ∈ g.nodes, 1 ≤ (g.get_neighbors n).length)
    (hbig : NUM_ENDPOINT_HEURISTIC < g.node_count) :
    (∀ n ∈ g.nodes, (g.get_neighbors n).length = 1 → n ∈ heuristic_start_nodes g) ∧
    (∀ x ∈ heuristic_start_nodes g, x ∈ g.nodes) ∧
    ((g.nodes.filter (fun node => min (g.get_neighbors node).length 5 - 1 = 0)).length ≤
        NUM_ENDPOINT_HEURISTIC →
      (heuristic_start_nodes g).length = NUM_ENDPOINT_HEURISTIC) := by
  refine ⟨?_, heuristic_start_subset g, ?_⟩
  · intro n hn hdeg1
    unfold heuristic_start_nodes
    rw [if_pos hbig]
    dsimp only
    have hmem0 : n ∈ g.nodes.filter
        (fun node => decide (min (g.get_neighbors node).length 5 - 1 = 0)) :=
      List.mem_filter.mpr ⟨hn, by simp [hdeg1]⟩
    repeat' split
    all_goals first
      | exact List.mem_append_left _ (List.mem_append_left _ hmem0)
      | exact List.mem_append_left _ hmem0
      | exact hmem0
  · intro hb0
    have hpart := filter_bucket_partition g.nodes
      (fun node => min (g.get_neighbors node).length 5 - 1)
      (fun x _ => by
        show min (g.get_neighbors x).length 5 - 1 < 5
        omega)
    dsimp only at hpart
    have hN : g.nodes.length = g.node_count := by
      unfold Graph.nodes Graph.node_count
      exact List.length_map _ _
    unfold heuristic_start_nodes
    rw [if_pos hbig]
    dsimp only
    repeat' split
    all_goals simp only [List.length_append, List.length_take,
      List.length_mergeSort] at *
    all_goals omega

set_option maxRecDepth 1000000 in
set_option maxHeartbeats 2000000 in
/-- C7 counterexample: the caterpillar has 301 nodes (above the target 254),
minimum degree 1, yet its start-candidate set keeps all 258 degree-1 leaves
and so exceeds the claimed 254-node cap. -/
theorem C7_candidate_cap_counterexample :
    NUM_ENDPOINT_HEURISTIC < caterpillar.node_count ∧
    (∀ n ∈ caterpillar.nodes, 1 ≤ (caterpillar.get_neighbors n).length) ∧
    NUM_ENDPOINT_HEURISTIC < (heuristic_start_nodes caterpillar).length := by
  decide

set_option maxRecDepth 1000000 in
set_option maxHeartbeats 2000000 in
/-- C7 witness: the caterpillar satisfies both hypotheses, and the theorem
places its degree-1 leaf 43 in the start-candidate set. -/
theorem C7_candidate_selection_witness :
    (∀ n ∈ caterpillar.nodes, 1 ≤ (caterpillar.get_neighbors n).length) ∧
    NUM_ENDPOINT_HEURISTIC < caterpillar.node_count ∧
    43 ∈ heuristic_start_nodes caterpillar :=
  ⟨by decide, by decide,
    (C7_candidate_selection caterpillar (by decide) (by decide)).1 43
      (by decide) (by decide)⟩
